import Mathlib

/-!
Verification of the automata engine of JFLAP-Online.

The JavaScript classes `State`, `Transition`, `Automaton` (js/core/Automaton.js),
`DFA` (js/machines/DFA.js), and the `NFA`, `PDA`, `TuringMachine` subclasses are
shallowly embedded below.  Mutable objects become immutable records, object
references become numeric ids, JavaScript `null`/`undefined` becomes `Option`,
JavaScript `Set`s become lists in insertion order, and the unbounded `while`
loops become fuel-indexed recursions whose fuel is shown sufficient.  Fields
that are purely presentational (colors, selection flags, the human readable
`trace` of the finite automata and of the PDA) are omitted; the Turing machine
trace is kept because its run loop reads it.
-/

set_option maxRecDepth 8192

namespace JFLAP

/-- The serialized fields of the `State` class (`toJSON` emits exactly
`id, name, x, y, isInitial, isFinal, isHalt`); display-only fields such as
`radius` and `color` are omitted.  Coordinates are modelled as integers. -/
structure State where
  id : Nat
  name : String
  x : Int
  y : Int
  isInitial : Bool
  isFinal : Bool
  isHalt : Bool
deriving DecidableEq

/-- The `Transition` class.  `fromState`/`toState` hold a `State` object or an
id in JavaScript; `getFromStateId`/`getToStateId` reduce either to an id (or
`undefined`), which is what the whole engine compares, so endpoints are
modelled as `Option Nat` directly.  `controlPoint`/`labelOffset` are the
serialized curve data. -/
structure Transition where
  id : Nat
  fromState : Option Nat
  toState : Option Nat
  symbols : List String
  stackRead : Option String := none
  stackWrite : Option String := none
  readSymbol : Option String := none
  writeSymbol : Option String := none
  direction : Option String := none
  controlPoint : Option (Int × Int) := none
  labelOffset : Int × Int := (0, -10)
deriving DecidableEq

/-- `Transition.getFromStateId()`: the endpoint reduced to an id. -/
def Transition.getFromStateId (t : Transition) : Option Nat := t.fromState

/-- `Transition.getToStateId()`. -/
def Transition.getToStateId (t : Transition) : Option Nat := t.toState

/-- `Transition.accepts(symbol)`.  The argument is a JavaScript string or
`null` (`none`).  If the symbol list holds `'ε'` or the empty string the
transition only accepts `''`, `'ε'` or `null`; otherwise membership decides. -/
def Transition.accepts (t : Transition) (symbol : Option String) : Bool :=
  if t.symbols.contains "ε" || t.symbols.contains "" then
    symbol == some "" || symbol == some "ε" || symbol == none
  else
    match symbol with
    | some s => t.symbols.contains s
    | none => false

/-- `Transition.isEpsilon()`. -/
def Transition.isEpsilon (t : Transition) : Bool :=
  t.symbols.length == 0 || t.symbols.contains "ε" ||
    (t.symbols.length == 1 && t.symbols.head? == some "")

/-- The structural part of the `Automaton` base class: type tag, state store,
transition store, derived alphabet (a JavaScript `Set`, kept as a list in
insertion order), and the id of the state the `initialState` reference points
to.  Simulation state and the undo history live outside this record. -/
structure Automaton where
  type : String
  states : List State
  transitions : List Transition
  alphabet : List String
  initialState : Option Nat
deriving DecidableEq

/-- `new Automaton(type)`. -/
def Automaton.new (type : String) : Automaton :=
  { type := type, states := [], transitions := [], alphabet := [],
    initialState := none }

/-- `Automaton.getState(id)`: first state with the given id. -/
def Automaton.getState (a : Automaton) (id : Nat) : Option State :=
  a.states.find? (fun s => s.id == id)

/-- `Automaton.getTransitionsFrom(state)`. -/
def Automaton.getTransitionsFrom (a : Automaton) (stateId : Nat) : List Transition :=
  a.transitions.filter (fun t => t.getFromStateId == some stateId)

/-- `Automaton.getFinalStates()`. -/
def Automaton.getFinalStates (a : Automaton) : List State :=
  a.states.filter (fun s => s.isFinal)

/-- JavaScript `Set.prototype.add` on a set kept as an insertion-ordered
list: append when absent. -/
def jsAdd (l : List String) (s : String) : List String :=
  if l.contains s then l else l ++ [s]

/-- `new Set(array)` read back with `Array.from`: first occurrences, in
order. -/
def jsSetOf (l : List String) : List String :=
  l.foldl jsAdd []

/-- The alphabet update of `addTransition`: every symbol that is neither
empty (falsy) nor `'ε'` is added to the alphabet set. -/
def addSymbols (alphabet : List String) (symbols : List String) : List String :=
  symbols.foldl (fun al s => if s != "" && s != "ε" then jsAdd al s else al) alphabet

/-- `this.initialState.isInitial = false`, performed through the alias held in
`initialState`.  In the id model the flag is cleared on every state carrying
the referenced id; under the one-initial-flag invariant (proved below) at most
one state is flagged and it carries this id, so this coincides with the
JavaScript assignment through the object reference. -/
def clearInitial (initId : Option Nat) (states : List State) : List State :=
  states.map (fun s => if some s.id == initId then { s with isInitial := false } else s)

/-- `stateObj.isInitial = true` where `stateObj` is `getState(id)`: the first
state with the id is flagged. -/
def setFirstInitial (id : Nat) : List State → List State
  | [] => []
  | s :: rest =>
      if s.id == id then { s with isInitial := true } :: rest
      else s :: setFirstInitial id rest

/-- `Automaton.addState(state)` (history snapshot omitted). -/
def Automaton.addState (a : Automaton) (s : State) : Automaton :=
  if a.states.isEmpty then
    { a with states := [{ s with isInitial := true }], initialState := some s.id }
  else if s.isInitial then
    { a with states := clearInitial a.initialState a.states ++ [s],
             initialState := some s.id }
  else
    { a with states := a.states ++ [s] }

/-- The transitions kept by `removeState`: those not incident to the id. -/
def keepTransitions (l : List Transition) (stateId : Nat) : List Transition :=
  l.filter (fun t => t.getFromStateId != some stateId && t.getToStateId != some stateId)

/-- `Automaton.removeState(state)`, by id: incident transitions go first, then
the state; if the removed id was the initial one, the first remaining state is
promoted. -/
def Automaton.removeState (a : Automaton) (stateId : Nat) : Automaton :=
  if a.initialState == some stateId then
    match a.states.filter (fun s => s.id != stateId) with
    | [] => { a with transitions := keepTransitions a.transitions stateId,
                     states := [], initialState := none }
    | s0 :: rest =>
        { a with transitions := keepTransitions a.transitions stateId,
                 states := { s0 with isInitial := true } :: rest,
                 initialState := some s0.id }
  else
    { a with transitions := keepTransitions a.transitions stateId,
             states := a.states.filter (fun s => s.id != stateId) }

/-- `Automaton.addTransition(transition)`. -/
def Automaton.addTransition (a : Automaton) (t : Transition) : Automaton :=
  { a with alphabet := addSymbols a.alphabet t.symbols,
           transitions := a.transitions ++ [t] }

/-- `Automaton.removeTransition(transition)`, by id. -/
def Automaton.removeTransition (a : Automaton) (tid : Nat) : Automaton :=
  { a with transitions := a.transitions.filter (fun t => t.id != tid) }

/-- `Automaton.setInitialState(state)`, by id: the current initial state's
flag is cleared first, then the state is looked up; an unknown id leaves the
`initialState` reference where it was. -/
def Automaton.setInitialState (a : Automaton) (id : Nat) : Automaton :=
  match (clearInitial a.initialState a.states).find? (fun s => s.id == id) with
  | some _ =>
      { a with states := setFirstInitial id (clearInitial a.initialState a.states),
               initialState := some id }
  | none => { a with states := clearInitial a.initialState a.states }

/-- `Automaton.clear()` (identity-counter reset and simulation reset are
outside the structural model). -/
def Automaton.clear (a : Automaton) : Automaton :=
  { a with states := [], transitions := [], alphabet := [], initialState := none }

/-- The public mutating operations of the editor interface. -/
inductive MutOp where
  | addState (s : State)
  | removeState (id : Nat)
  | addTransition (t : Transition)
  | removeTransition (id : Nat)
  | setInitialState (id : Nat)
  | clear
deriving DecidableEq

/-- Dispatch one mutating operation. -/
def Automaton.applyOp (a : Automaton) : MutOp → Automaton
  | .addState s => a.addState s
  | .removeState id => a.removeState id
  | .addTransition t => a.addTransition t
  | .removeTransition id => a.removeTransition id
  | .setInitialState id => a.setInitialState id
  | .clear => a.clear

/-- A whole editing session: operations applied in order. -/
def Automaton.applyOps (a : Automaton) (ops : List MutOp) : Automaton :=
  ops.foldl Automaton.applyOp a

/-- Number of states flagged initial. -/
def countInitial (a : Automaton) : Nat :=
  (a.states.filter (fun s => s.isInitial)).length

/-- The initial-state invariant: at most one flagged state, and a flagged
state carries the id held by the `initialState` reference. -/
def InitInv (a : Automaton) : Prop :=
  countInitial a ≤ 1 ∧ ∀ s ∈ a.states, s.isInitial → a.initialState = some s.id

lemma countFlags_eq_zero (l : List State) (h : ∀ s ∈ l, s.isInitial = false) :
    (l.filter (fun s => s.isInitial)).length = 0 := by
  rw [List.length_eq_zero, List.filter_eq_nil_iff]
  intro s hs
  simp [h s hs]

lemma countFlags_cons_le_one (x : State) (rest : List State)
    (h : ∀ s ∈ rest, s.isInitial = false) :
    ((x :: rest).filter (fun s => s.isInitial)).length ≤ 1 := by
  rw [List.filter_cons]
  by_cases hx : x.isInitial = true
  · simp [hx, countFlags_eq_zero rest h]
  · simp [hx, countFlags_eq_zero rest h]

lemma clearInitial_flag_false (i : Option Nat) (l : List State)
    (h : ∀ s ∈ l, s.isInitial → i = some s.id) :
    ∀ s ∈ clearInitial i l, s.isInitial = false := by
  intro s hs
  simp only [clearInitial, List.mem_map] at hs
  obtain ⟨s₀, hs₀, hfa⟩ := hs
  by_cases hc : (some s₀.id == i) = true
  · rw [if_pos hc] at hfa; subst hfa; rfl
  · rw [if_neg hc] at hfa; subst hfa
    cases hb : s₀.isInitial
    · rfl
    · exact absurd (by simp [h s₀ hs₀ hb]) hc

lemma setFirstInitial_spec (id : Nat) (l : List State)
    (h : ∀ s ∈ l, s.isInitial = false) :
    (((setFirstInitial id l).filter (fun s => s.isInitial)).length ≤ 1) ∧
      ∀ s ∈ setFirstInitial id l, s.isInitial → s.id = id := by
  induction l with
  | nil => simp [setFirstInitial]
  | cons s rest ih =>
    have hs : s.isInitial = false := h s (by simp)
    have hrest : ∀ s ∈ rest, s.isInitial = false := fun x hx => h x (by simp [hx])
    by_cases hc : (s.id == id) = true
    · refine ⟨?_, ?_⟩
      · simp only [setFirstInitial, if_pos hc, List.filter_cons]
        have := countFlags_eq_zero rest hrest
        simp [this]
      · intro x hx hix
        simp only [setFirstInitial, if_pos hc, List.mem_cons] at hx
        rcases hx with rfl | hx
        · simpa using hc
        · exact absurd hix (by simp [hrest x hx])
    · obtain ⟨ih1, ih2⟩ := ih hrest
      refine ⟨?_, ?_⟩
      · simp only [setFirstInitial, if_neg hc, List.filter_cons]
        simp [hs, ih1]
      · intro x hx hix
        simp only [setFirstInitial, if_neg hc, List.mem_cons] at hx
        rcases hx with rfl | hx
        · exact absurd hix (by simp [hs])
        · exact ih2 x hx hix

/-- One mutating operation preserves the initial-state invariant. -/
lemma initInv_applyOp (a : Automaton) (op : MutOp) (h : InitInv a) :
    InitInv (a.applyOp op) := by
  obtain ⟨h1, h2⟩ := h
  cases op with
  | addState s =>
    show InitInv (a.addState s)
    unfold Automaton.addState
    by_cases he : a.states.isEmpty
    · rw [if_pos he]
      constructor
      · simp [countInitial]
      · intro x hx hix
        simp only [List.mem_singleton] at hx
        subst hx; rfl
    · rw [if_neg he]
      by_cases hi : s.isInitial
      · rw [if_pos hi]
        have hclear := clearInitial_flag_false a.initialState a.states
          (fun x hx hix => h2 x hx hix)
        constructor
        · simp only [countInitial, List.filter_append, List.length_append]
          have h0 := countFlags_eq_zero _ hclear
          have h1s : ([s].filter (fun s => s.isInitial)).length ≤ 1 := by
            simp [List.filter_cons, hi]
          omega
        · intro x hx hix
          simp only [List.mem_append, List.mem_singleton] at hx
          rcases hx with hx | rfl
          · exact absurd hix (by simp [hclear x hx])
          · rfl
      · rw [if_neg hi]
        constructor
        · simp only [countInitial, List.filter_append, List.length_append]
          have h0 : ([s].filter (fun s => s.isInitial)).length = 0 := by
            simp [List.filter_cons, Bool.of_not_eq_true hi]
          simp only [countInitial] at h1
          omega
        · intro x hx hix
          simp only [List.mem_append, List.mem_singleton] at hx
          rcases hx with hx | rfl
          · exact h2 x hx hix
          · exact absurd hix hi
  | removeState id =>
    show InitInv (a.removeState id)
    unfold Automaton.removeState
    by_cases hc : (a.initialState == some id) = true
    · rw [if_pos hc]
      have hceq : a.initialState = some id := by simpa using hc
      have hfilter : ∀ x ∈ a.states.filter (fun s => s.id != id), x.isInitial = false := by
        intro x hx
        rw [List.mem_filter] at hx
        cases hb : x.isInitial
        · rfl
        · have h3 := h2 x hx.1 hb
          rw [hceq] at h3
          have h4 : x.id = id := by simpa using h3.symm
          have h5 : x.id ≠ id := by simpa using hx.2
          exact absurd h4 h5
      cases hst : a.states.filter (fun s => s.id != id) with
      | nil =>
        show InitInv { a with transitions := keepTransitions a.transitions id,
                              states := [], initialState := none }
        exact ⟨by simp [countInitial], by simp⟩
      | cons s0 rest =>
        show InitInv { a with transitions := keepTransitions a.transitions id,
                              states := { s0 with isInitial := true } :: rest,
                              initialState := some s0.id }
        have hrest : ∀ x ∈ rest, x.isInitial = false := by
          intro x hx
          exact hfilter x (by rw [hst]; simp [hx])
        constructor
        · exact countFlags_cons_le_one _ rest hrest
        · intro x hx hix
          simp only [List.mem_cons] at hx
          rcases hx with rfl | hx
          · rfl
          · exact absurd hix (by simp [hrest x hx])
    · rw [if_neg hc]
      constructor
      · refine le_trans ?_ h1
        simp only [countInitial]
        exact List.Sublist.length_le (List.Sublist.filter _ (List.filter_sublist _))
      · intro x hx hix
        rw [List.mem_filter] at hx
        exact h2 x hx.1 hix
  | addTransition t =>
    exact ⟨h1, h2⟩
  | removeTransition id =>
    exact ⟨h1, h2⟩
  | setInitialState id =>
    show InitInv (a.setInitialState id)
    have hclear := clearInitial_flag_false a.initialState a.states
      (fun x hx hix => h2 x hx hix)
    unfold Automaton.setInitialState
    cases hf : (clearInitial a.initialState a.states).find? (fun s => s.id == id) with
    | none =>
      show InitInv { a with states := clearInitial a.initialState a.states }
      constructor
      · simp only [countInitial]
        simp [countFlags_eq_zero _ hclear]
      · intro x hx hix
        exact absurd hix (by simp [hclear x hx])
    | some s =>
      show InitInv { a with states := setFirstInitial id (clearInitial a.initialState a.states),
                            initialState := some id }
      obtain ⟨hle, hflag⟩ := setFirstInitial_spec id _ hclear
      exact ⟨hle, fun x hx hix => by rw [hflag x hx hix]⟩
  | clear =>
    show InitInv (a.clear)
    exact ⟨by simp [countInitial, Automaton.clear], by simp [Automaton.clear]⟩

lemma initInv_applyOps (a : Automaton) (ops : List MutOp) (h : InitInv a) :
    InitInv (a.applyOps ops) := by
  induction ops generalizing a with
  | nil => exact h
  | cons op rest ih => exact ih _ (initInv_applyOp a op h)

lemma set_flag_false_eq (s : State) (h : s.isInitial = false) :
    { s with isInitial := false } = s := by
  cases s; simp_all

/-- C8: after any sequence of the mutating operations `addState`, `removeState`,
`addTransition`, `removeTransition`, `setInitialState` and `clear`, applied to
a freshly constructed automaton of any type, at most one state of the automaton
has `isInitial = true`. -/
theorem C8_at_most_one_initial (type : String) (ops : List MutOp) :
    countInitial ((Automaton.new type).applyOps ops) ≤ 1 := by
  have hnew : InitInv (Automaton.new type) := by
    constructor
    · simp [countInitial, Automaton.new]
    · intro s hs
      simp [Automaton.new] at hs
  exact (initInv_applyOps _ ops hnew).1

/-- The one-state automaton used to refute C9: a fresh automaton after
`addState` of state 0 (which becomes the initial state). -/
def c9Auto : Automaton :=
  (Automaton.new "dfa").addState
    { id := 0, name := "q0", x := 100, y := 100,
      isInitial := false, isFinal := false, isHalt := false }

/-- C9 as stated is false: id 1 belongs to no state of `c9Auto`, yet
`setInitialState(1)` changes state 0's `isInitial` flag from `true` to
`false` (the code clears the old initial flag before looking the id up). -/
theorem C9_counterexample :
    (∀ s ∈ c9Auto.states, s.id ≠ 1) ∧
    c9Auto.states.map State.isInitial = [true] ∧
    (c9Auto.setInitialState 1).states.map State.isInitial = [false] := by
  decide

/-- C9 (amended): for an id that belongs to no state, is not an endpoint of
any (dangling) transition and is not the current initial id, `removeState` is
a no-op; `setInitialState` on an unknown id leaves type, transitions, alphabet
and the `initialState` reference unchanged and touches states only by clearing
the `isInitial` flag of the state(s) carrying the current initial id — in
particular it is a full no-op when no state is flagged initial. -/
theorem C9_invalid_ops (a : Automaton) (id : Nat)
    (hid : ∀ s ∈ a.states, s.id ≠ id)
    (htr : ∀ t ∈ a.transitions, t.getFromStateId ≠ some id ∧ t.getToStateId ≠ some id)
    (hinit : a.initialState ≠ some id) :
    a.removeState id = a ∧
    (a.setInitialState id).type = a.type ∧
    (a.setInitialState id).transitions = a.transitions ∧
    (a.setInitialState id).alphabet = a.alphabet ∧
    (a.setInitialState id).initialState = a.initialState ∧
    (a.setInitialState id).states =
      a.states.map (fun s =>
        if some s.id = a.initialState then { s with isInitial := false } else s) ∧
    ((∀ s ∈ a.states, s.isInitial = false) → a.setInitialState id = a) := by
  have ht : keepTransitions a.transitions id = a.transitions := by
    rw [keepTransitions, List.filter_eq_self]
    intro t htm
    have h := htr t htm
    simp [h.1, h.2]
  have hclear_eq : clearInitial a.initialState a.states =
      a.states.map (fun s =>
        if some s.id = a.initialState then { s with isInitial := false } else s) := by
    unfold clearInitial
    apply List.map_congr_left
    intro s _
    by_cases h : some s.id = a.initialState <;> simp [h]
  have hfind : (clearInitial a.initialState a.states).find? (fun s => s.id == id) = none := by
    rw [List.find?_eq_none]
    intro x hx
    simp only [clearInitial, List.mem_map] at hx
    obtain ⟨s₀, hs₀, hfa⟩ := hx
    have hxid : x.id = s₀.id := by
      by_cases hc : (some s₀.id == a.initialState) = true
      · rw [if_pos hc] at hfa; subst hfa; rfl
      · rw [if_neg hc] at hfa; subst hfa; rfl
    simp [hxid, hid s₀ hs₀]
  have hsis : a.setInitialState id = { a with states := clearInitial a.initialState a.states } := by
    unfold Automaton.setInitialState
    rw [hfind]
  refine ⟨?_, ?_, ?_, ?_, ?_, ?_, ?_⟩
  · unfold Automaton.removeState
    rw [if_neg (by simp [hinit])]
    have hs : a.states.filter (fun s => s.id != id) = a.states := by
      rw [List.filter_eq_self]
      intro s hsm
      simp [hid s hsm]
    rw [ht, hs]
  · rw [hsis]
  · rw [hsis]
  · rw [hsis]
  · rw [hsis]
  · rw [hsis]; exact hclear_eq
  · intro hflags
    rw [hsis]
    have : clearInitial a.initialState a.states = a.states := by
      rw [hclear_eq]
      conv_rhs => rw [← List.map_id a.states]
      apply List.map_congr_left
      intro s hsm
      by_cases h : some s.id = a.initialState
      · rw [if_pos h]
        exact set_flag_false_eq s (hflags s hsm)
      · simp [h]
    rw [this]

/-- Witness for the amended C9, at `c9Auto` and the unknown id 5. -/
theorem C9_invalid_ops_witness :
    (∀ s ∈ c9Auto.states, s.id ≠ 5) ∧ c9Auto.removeState 5 = c9Auto := by
  refine ⟨by decide, ?_⟩
  exact (C9_invalid_ops c9Auto 5 (by decide) (by decide) (by decide)).1

/-! ### Structured serialization (claim C4)

`State.toJSON` emits exactly the fields of our `State` record, so the
serialized form of a state is the record itself and the round trip on a state
is `new State(json)`, which substitutes defaults for falsy fields.  Likewise a
serialized transition is the `Transition` record (endpoints already reduced to
ids by `getFromStateId`), and `Transition.fromJSON` re-resolves endpoints
against the freshly built state list and lets the constructor null out falsy
option fields.  Identity counters and the undo history are outside the
structural model. -/

/-- `new State(State.toJSON(s))`: `options.name || 'q'+id`, `options.x || 100`,
`options.y || 100` replace falsy values; the boolean flags and the id pass
through. -/
def State.fromJSON (s : State) : State :=
  { s with name := if s.name = "" then "q" ++ toString s.id else s.name,
           x := if s.x = 0 then 100 else s.x,
           y := if s.y = 0 then 100 else s.y }

/-- `options.field || null` on a string-or-null constructor option. -/
def nullIfEmpty : Option String → Option String
  | some s => if s = "" then none else some s
  | none => none

/-- `states.find(s => s.id === i)` reduced to the endpoint id it yields. -/
def resolveId (states : List State) : Option Nat → Option Nat
  | some i => if states.any (fun s => s.id == i) then some i else none
  | none => none

/-- `Transition.fromJSON(Transition.toJSON(t), states)`. -/
def Transition.fromJSON (states : List State) (t : Transition) : Transition :=
  { t with
    fromState := resolveId states t.fromState,
    toState := resolveId states t.toState,
    stackRead := nullIfEmpty t.stackRead,
    stackWrite := nullIfEmpty t.stackWrite,
    readSymbol := nullIfEmpty t.readSymbol,
    writeSymbol := nullIfEmpty t.writeSymbol,
    direction := nullIfEmpty t.direction }

/-- The record `Automaton.toJSON` produces. -/
structure AutomatonJSON where
  type : String
  states : List State
  transitions : List Transition
  alphabet : List String
  initialStateId : Option Nat
deriving DecidableEq

/-- `Automaton.toJSON()`. -/
def Automaton.toJSON (a : Automaton) : AutomatonJSON :=
  { type := a.type, states := a.states, transitions := a.transitions,
    alphabet := a.alphabet, initialStateId := a.initialState }

/-- `Automaton.loadFromJSON(json)`: rebuild states, re-resolve transition
endpoints, re-read the alphabet into a set, and restore the initial state (by
id when serialized, else the first flagged state). -/
def Automaton.loadFromJSON (j : AutomatonJSON) : Automaton :=
  { type := if j.type = "" then "dfa" else j.type,
    states := j.states.map State.fromJSON,
    transitions := j.transitions.map (Transition.fromJSON (j.states.map State.fromJSON)),
    alphabet := jsSetOf j.alphabet,
    initialState :=
      match j.initialStateId with
      | some i => resolveId (j.states.map State.fromJSON) (some i)
      | none => ((j.states.map State.fromJSON).find? (fun s => s.isInitial)).map State.id }

/-- The structural part of the `PDA` subclass: the base automaton plus the
serialized PDA fields (the run-time `stack`/`configurations` live in the
simulation state). -/
structure PDA where
  auto : Automaton
  initialStackSymbol : String := "Z"
  acceptByFinalState : Bool := true
  acceptByEmptyStack : Bool := false
  stackAlphabet : List String := ["Z"]
deriving DecidableEq

/-- The record `PDA.toJSON` produces. -/
structure PDAJSON where
  base : AutomatonJSON
  initialStackSymbol : String
  acceptByFinalState : Bool
  acceptByEmptyStack : Bool
  stackAlphabet : List String
deriving DecidableEq

/-- `PDA.toJSON()`. -/
def PDA.toJSON (p : PDA) : PDAJSON :=
  { base := p.auto.toJSON, initialStackSymbol := p.initialStackSymbol,
    acceptByFinalState := p.acceptByFinalState,
    acceptByEmptyStack := p.acceptByEmptyStack,
    stackAlphabet := p.stackAlphabet }

/-- `PDA.loadFromJSON(json)`: `json.initialStackSymbol || 'Z'`,
`json.acceptByFinalState !== false` and `json.acceptByEmptyStack || false`
(both the identity on booleans), `new Set(json.stackAlphabet)` (arrays are
truthy, so the `|| ['Z']` fallback never fires on a serialized value). -/
def PDA.loadFromJSON (j : PDAJSON) : PDA :=
  { auto := Automaton.loadFromJSON j.base,
    initialStackSymbol :=
      if j.initialStackSymbol = "" then "Z" else j.initialStackSymbol,
    acceptByFinalState := j.acceptByFinalState,
    acceptByEmptyStack := j.acceptByEmptyStack,
    stackAlphabet := jsSetOf j.stackAlphabet }

/-- The structural part of the `TuringMachine` subclass (tape, head and
display window are simulation state). -/
structure TM where
  auto : Automaton
  blankSymbol : String := "□"
  tapeAlphabet : List String := ["□"]
deriving DecidableEq

/-- The record `TuringMachine.toJSON` produces. -/
structure TMJSON where
  base : AutomatonJSON
  blankSymbol : String
  tapeAlphabet : List String
deriving DecidableEq

/-- `TuringMachine.toJSON()`. -/
def TM.toJSON (m : TM) : TMJSON :=
  { base := m.auto.toJSON, blankSymbol := m.blankSymbol,
    tapeAlphabet := m.tapeAlphabet }

/-- `TuringMachine.loadFromJSON(json)`. -/
def TM.loadFromJSON (j : TMJSON) : TM :=
  { auto := Automaton.loadFromJSON j.base,
    blankSymbol := if j.blankSymbol = "" then "□" else j.blankSymbol,
    tapeAlphabet := jsSetOf j.tapeAlphabet }

/-- Well-formedness of an automaton for serialization: one of the four type
tags; no falsy name or coordinate (these are exactly what the counterexample
below exhibits, so they appear here as explicit amendment hypotheses); live
transition endpoints (spec §3 invariant) and constructor-normalized option
fields; a duplicate-free alphabet; a live, flag-consistent initial state. -/
def WfJSON (a : Automaton) : Prop :=
  (a.type = "dfa" ∨ a.type = "nfa" ∨ a.type = "pda" ∨ a.type = "tm") ∧
  (∀ s ∈ a.states, s.name ≠ "" ∧ s.x ≠ 0 ∧ s.y ≠ 0) ∧
  (∀ t ∈ a.transitions,
      (∀ i, t.fromState = some i → ∃ s ∈ a.states, s.id = i) ∧
      (∀ i, t.toState = some i → ∃ s ∈ a.states, s.id = i) ∧
      t.stackRead ≠ some "" ∧ t.stackWrite ≠ some "" ∧
      t.readSymbol ≠ some "" ∧ t.writeSymbol ≠ some "" ∧ t.direction ≠ some "") ∧
  a.alphabet.Nodup ∧
  (∀ i, a.initialState = some i → ∃ s ∈ a.states, s.id = i) ∧
  (a.initialState = none → ∀ s ∈ a.states, s.isInitial = false)

instance (a : Automaton) : Decidable (WfJSON a) := by
  unfold WfJSON
  infer_instance

lemma foldl_jsAdd_of_nodup (l : List String) : ∀ acc, (acc ++ l).Nodup →
    l.foldl jsAdd acc = acc ++ l := by
  induction l with
  | nil => intro acc _; simp
  | cons x rest ih =>
    intro acc h
    have hx : x ∉ acc := by
      intro hmem
      have := List.disjoint_of_nodup_append h
      exact this hmem (by simp)
    have hadd : jsAdd acc x = acc ++ [x] := by
      simp [jsAdd, hx]
    rw [List.foldl_cons, hadd, ih (acc ++ [x]) (by simpa using h)]
    simp

lemma jsSetOf_nodup (l : List String) (h : l.Nodup) : jsSetOf l = l := by
  simpa using foldl_jsAdd_of_nodup l [] (by simpa using h)

lemma state_fromJSON_id (s : State) (h : s.name ≠ "" ∧ s.x ≠ 0 ∧ s.y ≠ 0) :
    State.fromJSON s = s := by
  unfold State.fromJSON
  rw [if_neg h.1, if_neg h.2.1, if_neg h.2.2]

lemma fromJSON_id_eq (s : State) : (State.fromJSON s).id = s.id := rfl

lemma nullIfEmpty_id (o : Option String) (h : o ≠ some "") : nullIfEmpty o = o := by
  cases o with
  | none => rfl
  | some s =>
    simp only [nullIfEmpty]
    rw [if_neg]
    intro hc
    exact h (by rw [hc])

/-- Structured round trip on the base automaton, under `WfJSON`. -/
lemma roundTrip_base (a : Automaton) (h : WfJSON a) :
    Automaton.loadFromJSON a.toJSON = a := by
  obtain ⟨htype, hstates, htrans, halpha, hinit, hflags⟩ := h
  have hstatesmap : a.states.map State.fromJSON = a.states := by
    conv_rhs => rw [← List.map_id a.states]
    apply List.map_congr_left
    intro s hs
    exact state_fromJSON_id s (hstates s hs)
  have hany : ∀ i, (∃ s ∈ a.states, s.id = i) →
      (a.states.any (fun s => s.id == i)) = true := by
    intro i ⟨s, hs, hid⟩
    rw [List.any_eq_true]
    exact ⟨s, hs, by simp [hid]⟩
  unfold Automaton.loadFromJSON Automaton.toJSON
  simp only [hstatesmap]
  have htype' : a.type ≠ "" := by
    rcases htype with h | h | h | h <;> simp [h]
  congr 1
  · rw [if_neg htype']
  · conv_rhs => rw [← List.map_id a.transitions]
    apply List.map_congr_left
    intro t ht
    obtain ⟨hfrom, hto, h1, h2, h3, h4, h5⟩ := htrans t ht
    unfold Transition.fromJSON
    rw [nullIfEmpty_id _ h1, nullIfEmpty_id _ h2, nullIfEmpty_id _ h3,
        nullIfEmpty_id _ h4, nullIfEmpty_id _ h5]
    have hres : ∀ (o : Option Nat), (∀ i, o = some i → ∃ s ∈ a.states, s.id = i) →
        resolveId a.states o = o := by
      intro o ho
      cases o with
      | none => rfl
      | some i => simp only [resolveId]; rw [if_pos (hany i (ho i rfl))]
    rw [hres _ hfrom, hres _ hto]
    rfl
  · exact jsSetOf_nodup _ halpha
  · cases hi : a.initialState with
    | none =>
      simp only []
      rw [List.find?_eq_none.mpr]
      · rfl
      · intro s hs
        simp [hflags hi s hs]
    | some i =>
      simp only [resolveId]
      rw [if_pos (hany i (hinit i hi))]

/-- Structured round trip on a PDA. -/
lemma roundTrip_pda (p : PDA) (h : WfJSON p.auto) (hss : p.initialStackSymbol ≠ "")
    (hsa : p.stackAlphabet.Nodup) : PDA.loadFromJSON p.toJSON = p := by
  unfold PDA.loadFromJSON PDA.toJSON
  simp only []
  congr 1
  · exact roundTrip_base p.auto h
  · rw [if_neg hss]
  · exact jsSetOf_nodup _ hsa

/-- Structured round trip on a TM. -/
lemma roundTrip_tm (m : TM) (h : WfJSON m.auto) (hbs : m.blankSymbol ≠ "")
    (hta : m.tapeAlphabet.Nodup) : TM.loadFromJSON m.toJSON = m := by
  unfold TM.loadFromJSON TM.toJSON
  simp only []
  congr 1
  · exact roundTrip_base m.auto h
  · rw [if_neg hbs]
  · exact jsSetOf_nodup _ hta

/-- The automaton refuting C4 as stated: one state sitting at x = 0. -/
def c4Auto : Automaton :=
  { type := "dfa",
    states := [{ id := 0, name := "q0", x := 0, y := 100,
                 isInitial := true, isFinal := false, isHalt := false }],
    transitions := [], alphabet := [], initialState := some 0 }

/-- C4 as stated is false: the structured round trip moves a state with
x-coordinate 0 to x = 100 (`new State` treats `x: 0` as falsy and substitutes
the default), so geometry is not always preserved. -/
theorem C4_counterexample :
    c4Auto.states.map State.x = [0] ∧
    (Automaton.loadFromJSON c4Auto.toJSON).states.map State.x = [100] := by
  decide

/-- C4 (amended): for automata of the four types whose states have non-falsy
names and coordinates (name not empty, x and y not 0), with live transition
endpoints, constructor-normalized option fields, duplicate-free symbol sets
and a consistent initial state, the structured round trip
`loadFromJSON(toJSON(A))` is the identity — on the base record for DFA/NFA and
including the PDA fields (`initialStackSymbol` nonempty) and the TM fields
(`blankSymbol` nonempty). -/
theorem C4_round_trip :
    (∀ a : Automaton, WfJSON a → Automaton.loadFromJSON a.toJSON = a) ∧
    (∀ p : PDA, WfJSON p.auto → p.initialStackSymbol ≠ "" →
        p.stackAlphabet.Nodup → PDA.loadFromJSON p.toJSON = p) ∧
    (∀ m : TM, WfJSON m.auto → m.blankSymbol ≠ "" →
        m.tapeAlphabet.Nodup → TM.loadFromJSON m.toJSON = m) :=
  ⟨roundTrip_base, roundTrip_pda, roundTrip_tm⟩

/-- Witness for the amended C4, at a concrete well-formed PDA. -/
theorem C4_round_trip_witness :
    WfJSON c9Auto ∧
    PDA.loadFromJSON (PDA.toJSON { auto := c9Auto }) = { auto := c9Auto } := by
  refine ⟨by decide, ?_⟩
  exact C4_round_trip.2.1 { auto := c9Auto } (by decide) (by decide) (by decide)

/-! ### PDA simulation (claims C2 and C3)

The input string is a list of characters; reading `input[i]` yields a
one-character string, which is what `Transition.accepts` and
`canTakeTransition` receive.  A stack is the JavaScript array: a list of
strings (one pushed character each, except the initial stack symbol), top at
the end. -/

/-- `new PDA()`: the defaults of the constructor (`acceptByFinalState = true`,
`acceptByEmptyStack = false`, initial stack symbol `Z`). -/
def PDA.new : PDA :=
  { auto := Automaton.new "pda" }

/-- A configuration `{ state, stack, inputIndex }` (the state by id). -/
structure PDAConfig where
  state : Nat
  stack : List String
  inputIndex : Nat
deriving DecidableEq

/-- The mutable simulation state of a PDA run (`trace` and the display-only
`stack` mirror are omitted; `inputIndex` is the display cursor the step
refreshes from the first configuration). -/
structure PDASt where
  configurations : List PDAConfig
  inputIndex : Nat
  isAccepted : Option Bool
deriving DecidableEq

/-- `value || 'ε'` on a string-or-null field. -/
def orEps : Option String → String
  | some s => if s = "" then "ε" else s
  | none => "ε"

/-- `stack.length > 0 ? stack[stack.length - 1] : 'ε'`. -/
def stackTopStr (stack : List String) : String :=
  (stack.getLast?).getD "ε"

/-- `PDA.canTakeTransition(transition, symbol, stackTop)`. -/
def canTakeTransition (t : Transition) (symbol : Option String) (stackTop : String) : Bool :=
  (t.symbols.length == 0 || t.isEpsilon ||
      (match symbol with
       | some s => t.symbols.contains s
       | none => false)) &&
  (orEps t.stackRead == "ε" || orEps t.stackRead == stackTop)

/-- `PDA.applyStackOperation(stack, transition)`: pop the top when the
stack-read is not ε and the stack is nonempty; push the characters of the
stack-write in reverse so its first character ends on top. -/
def applyStackOperation (stack : List String) (t : Transition) : List String :=
  (if orEps t.stackRead != "ε" && !stack.isEmpty then stack.dropLast else stack) ++
    (if orEps t.stackWrite != "ε"
     then ((orEps t.stackWrite).data.reverse.map (fun c => String.mk [c]))
     else [])

/-- `typeof t.toState === 'object' ? t.toState : this.getState(t.toState)`,
reduced to the id when it resolves. -/
def resolveTo (a : Automaton) (t : Transition) : Option Nat :=
  match t.toState with
  | some i => if (a.getState i).isSome then some i else none
  | none => none

/-- The configurations one configuration contributes in one `PDA.step()`:
for each transition out of its state, the ε-move (input not consumed) and
then the symbol move (cursor advanced), in transition order. -/
def configSuccessors (p : PDA) (input : List Char) (c : PDAConfig) : List PDAConfig :=
  if c.inputIndex > input.length then []
  else
    (p.auto.getTransitionsFrom c.state).flatMap (fun t =>
      (if t.isEpsilon && canTakeTransition t none (stackTopStr c.stack) then
         match resolveTo p.auto t with
         | some toId =>
             [{ state := toId, stack := applyStackOperation c.stack t,
                inputIndex := c.inputIndex }]
         | none => []
       else []) ++
      (if input[c.inputIndex]?.isSome &&
          canTakeTransition t (input[c.inputIndex]?.map (fun ch => String.mk [ch]))
            (stackTopStr c.stack) &&
          !t.isEpsilon then
         match resolveTo p.auto t with
         | some toId =>
             [{ state := toId, stack := applyStackOperation c.stack t,
                inputIndex := c.inputIndex + 1 }]
         | none => []
       else []))

/-- The verdict `PDA.checkAcceptance()` computes from the configurations that
consumed all input. -/
def pdaAcceptVerdict (p : PDA) (input : List Char) (configs : List PDAConfig) : Bool :=
  if (configs.filter (fun c => c.inputIndex ≥ input.length)).isEmpty then false
  else if p.acceptByFinalState &&
      (configs.filter (fun c => c.inputIndex ≥ input.length)).any
        (fun c => (p.auto.getFinalStates).any (fun f => f.id == c.state)) then
    true
  else if p.acceptByEmptyStack &&
      (configs.filter (fun c => c.inputIndex ≥ input.length)).any
        (fun c => c.stack.isEmpty) then
    true
  else false

/-- `PDA.checkAcceptance()`: store the verdict in `isAccepted`. -/
def pdaCheckAcceptance (p : PDA) (input : List Char) (st : PDASt) : PDASt :=
  { st with isAccepted := some (pdaAcceptVerdict p input st.configurations) }

/-- One `PDA.step()`.  Returns the value of the call (`hadProgress`) and the
new simulation state. -/
def pdaStep (p : PDA) (input : List Char) (st : PDASt) : Bool × PDASt :=
  if st.configurations.isEmpty then
    (false, pdaCheckAcceptance p input st)
  else
    match st.configurations.flatMap (configSuccessors p input) with
    | [] => (false, { st with configurations := [], isAccepted := some false })
    | c0 :: rest =>
        if (c0 :: rest).all (fun c => c.inputIndex ≥ input.length) then
          (false, pdaCheckAcceptance p input
            { st with configurations := c0 :: rest, inputIndex := c0.inputIndex })
        else
          (true, { st with configurations := c0 :: rest, inputIndex := c0.inputIndex })

/-- Why a bounded run loop stopped. -/
inductive RunExit where
  | budget
  | emptyActive
  | accepted
  | noProgress
deriving DecidableEq

/-- The loop of `PDA.run(maxSteps)`:
`while (steps < maxSteps && configurations.length > 0)`, breaking when
acceptance turned `true` or the step reported no progress.  Also returns the
number of executed steps and why the loop stopped. -/
def pdaRunGo (p : PDA) (input : List Char) : Nat → PDASt → Nat → PDASt × Nat × RunExit
  | 0, st, steps => (st, steps, RunExit.budget)
  | fuel + 1, st, steps =>
      if st.configurations.isEmpty then (st, steps, RunExit.emptyActive)
      else
        match pdaStep p input st with
        | (had, st') =>
            if st'.isAccepted == some true then (st', steps + 1, RunExit.accepted)
            else if !had then (st', steps + 1, RunExit.noProgress)
            else pdaRunGo p input fuel st' (steps + 1)

/-- `PDA.run(maxSteps)`: the loop followed by a final `checkAcceptance` when
the verdict is still undecided. -/
def pdaRun (p : PDA) (input : List Char) (maxSteps : Nat) (st : PDASt) :
    PDASt × Nat × RunExit :=
  match pdaRunGo p input maxSteps st 0 with
  | (st', steps, ex) =>
      (if st'.isAccepted == none then pdaCheckAcceptance p input st' else st', steps, ex)

/-- `PDA.initSimulation(input)` (trace and highlighting omitted): one
configuration at the initial state with stack `[initialStackSymbol]`, or none
when there is no initial state. -/
def pdaInitSimulation (p : PDA) : PDASt :=
  match p.auto.initialState with
  | some i =>
      { configurations := [{ state := i, stack := [p.initialStackSymbol], inputIndex := 0 }],
        inputIndex := 0, isAccepted := none }
  | none => { configurations := [], inputIndex := 0, isAccepted := none }

lemma pdaAcceptVerdict_iff (p : PDA) (input : List Char) (configs : List PDAConfig) :
    pdaAcceptVerdict p input configs = true ↔
      ((p.acceptByFinalState = true ∧ ∃ c ∈ configs, c.inputIndex ≥ input.length ∧
          ∃ s ∈ p.auto.states, s.isFinal = true ∧ s.id = c.state) ∨
       (p.acceptByEmptyStack = true ∧ ∃ c ∈ configs, c.inputIndex ≥ input.length ∧
          c.stack = [])) := by
  unfold pdaAcceptVerdict
  have hmem : ∀ (P : PDAConfig → Prop),
      ((∃ x ∈ configs.filter (fun c => c.inputIndex ≥ input.length), P x) ↔
        (∃ x ∈ configs, x.inputIndex ≥ input.length ∧ P x)) := by
    intro P
    constructor
    · rintro ⟨x, hx, hP⟩
      rw [List.mem_filter] at hx
      exact ⟨x, hx.1, by simpa using hx.2, hP⟩
    · rintro ⟨x, hx, hge, hP⟩
      exact ⟨x, List.mem_filter.mpr ⟨hx, by simpa using hge⟩, hP⟩
  have hfin : ∀ c : PDAConfig,
      ((p.auto.getFinalStates).any (fun f => f.id == c.state) = true ↔
        ∃ s ∈ p.auto.states, s.isFinal = true ∧ s.id = c.state) := by
    intro c
    rw [List.any_eq_true]
    unfold Automaton.getFinalStates
    constructor
    · rintro ⟨s, hs, hid⟩
      rw [List.mem_filter] at hs
      exact ⟨s, hs.1, hs.2, by simpa using hid⟩
    · rintro ⟨s, hs, hfin, hid⟩
      exact ⟨s, List.mem_filter.mpr ⟨hs, hfin⟩, by simpa using hid⟩
  split_ifs with h0 h1 h2
  · rw [List.isEmpty_iff] at h0
    simp only [false_iff]
    rintro (⟨_, c, hc, hge, _⟩ | ⟨_, c, hc, hge, _⟩) <;>
      · have hmem2 : c ∈ configs.filter (fun c => c.inputIndex ≥ input.length) :=
          List.mem_filter.mpr ⟨hc, by simpa using hge⟩
        rw [h0] at hmem2
        exact absurd hmem2 (by simp)
  · rw [Bool.and_eq_true] at h1
    obtain ⟨habf, hany⟩ := h1
    rw [List.any_eq_true] at hany
    obtain ⟨c, hcf, hinner⟩ := hany
    simp only [true_iff]
    left
    exact ⟨habf, (hmem _).mp ⟨c, hcf, (hfin c).mp hinner⟩⟩
  · rw [Bool.and_eq_true] at h2
    obtain ⟨habe, hany⟩ := h2
    rw [List.any_eq_true] at hany
    obtain ⟨c, hcf, hinner⟩ := hany
    simp only [true_iff]
    right
    refine ⟨habe, (hmem _).mp ⟨c, hcf, ?_⟩⟩
    simpa using hinner
  · simp only [false_iff]
    rintro (⟨habf, hex⟩ | ⟨habe, hex⟩)
    · apply h1
      rw [Bool.and_eq_true]
      refine ⟨habf, ?_⟩
      rw [List.any_eq_true]
      obtain ⟨c, hcf, hP⟩ := (hmem _).mpr hex
      exact ⟨c, hcf, (hfin c).mpr hP⟩
    · apply h2
      rw [Bool.and_eq_true]
      refine ⟨habe, ?_⟩
      rw [List.any_eq_true]
      obtain ⟨c, hcf, hP⟩ := (hmem _).mpr hex
      exact ⟨c, hcf, by simpa using hP⟩

/-- C2: `checkAcceptance` looks only at configurations whose `inputIndex` has
reached the input length, accepts iff (`acceptByFinalState`, default on, and
one such configuration sits in a final state) or (`acceptByEmptyStack`,
default off, and one such configuration has an empty stack), and otherwise
(including when no configuration consumed all input) rejects. -/
theorem C2_pda_check_acceptance (p : PDA) (input : List Char) (st : PDASt) :
    ((pdaCheckAcceptance p input st).isAccepted = some true ↔
      ((p.acceptByFinalState = true ∧ ∃ c ∈ st.configurations,
          c.inputIndex ≥ input.length ∧
          ∃ s ∈ p.auto.states, s.isFinal = true ∧ s.id = c.state) ∨
       (p.acceptByEmptyStack = true ∧ ∃ c ∈ st.configurations,
          c.inputIndex ≥ input.length ∧ c.stack = []))) ∧
    ((pdaCheckAcceptance p input st).isAccepted = some true ∨
      (pdaCheckAcceptance p input st).isAccepted = some false) ∧
    PDA.new.acceptByFinalState = true ∧ PDA.new.acceptByEmptyStack = false := by
  refine ⟨?_, ?_, rfl, rfl⟩
  · unfold pdaCheckAcceptance
    simp only [Option.some.injEq]
    exact pdaAcceptVerdict_iff p input st.configurations
  · unfold pdaCheckAcceptance
    cases pdaAcceptVerdict p input st.configurations
    · right; rfl
    · left; rfl

/-! ### Turing machine (claims C6 and C7)

The tape is the JavaScript array of cell strings, with `visibleTapeStart` the
logical coordinate of physical index 0 and `headPosition` a physical index.
The trace is kept because `TuringMachine.run`'s loop detector reads it. -/

/-- A TM trace entry (the fields the loop detector compares are `states`,
`headPosition` and `tape`). -/
structure TMTrace where
  step : Nat
  states : List String
  tape : String
  headPosition : Int
  symbol : Option String
  description : String
deriving DecidableEq, Inhabited

/-- The mutable simulation state of a TM run.  `currentStates` is the
singleton active set, holding the state object itself as JavaScript does. -/
structure TMSt where
  tape : List String
  headPosition : Nat
  visibleTapeStart : Int
  visibleTapeEnd : Int
  currentStates : Option State
  trace : List TMTrace
  isAccepted : Option Bool
  inputIndex : Nat
  tapeAlphabet : List String
deriving DecidableEq

/-- `TuringMachine.getTapeCell(position)`: out-of-window reads yield the
blank. -/
def getTapeCell (m : TM) (st : TMSt) (position : Int) : String :=
  if position - st.visibleTapeStart < 0 then m.blankSymbol
  else (st.tape[(position - st.visibleTapeStart).toNat]?.getD m.blankSymbol)

/-- One turn of the `while (index < 0)` loop in `setTapeCell`: unshift a
blank, move the window start left, compensate the head's physical index. -/
def tapeExtendLeft (m : TM) (st : TMSt) : TMSt :=
  { st with tape := m.blankSymbol :: st.tape,
            visibleTapeStart := st.visibleTapeStart - 1,
            headPosition := st.headPosition + 1 }

/-- One turn of the `while (index >= tape.length)` loop in `setTapeCell`:
push a blank, move the window end right. -/
def tapeExtendRight (m : TM) (st : TMSt) : TMSt :=
  { st with tape := st.tape ++ [m.blankSymbol],
            visibleTapeEnd := st.visibleTapeEnd + 1 }

/-- The left-extension loop of `setTapeCell` exactly as the source wrote it:
`const index = position - visibleTapeStart` is computed once and the loop
condition `while (index < 0)` tests that constant, which the body never
updates — so the loop runs zero times or forever.  Fuel counts loop turns;
`none` means the fuel ran out with the condition still true, and
`C7_counterexample` shows this happens at every fuel once `index < 0`. -/
def setTapeLeftLoop (m : TM) (index : Int) : Nat → TMSt → Option TMSt
  | 0, st => if index < 0 then none else some st
  | fuel + 1, st =>
      if index < 0 then setTapeLeftLoop m index fuel (tapeExtendLeft m st)
      else some st

/-- `TuringMachine.setTapeCell(position, symbol)`.  A position left of the
window makes the left-extension loop spin forever (see `setTapeLeftLoop`),
modelled as `none`.  Otherwise the left loop runs zero times, the right loop
pushes blanks until the once-computed index is in range, and the cell is
written (`visibleTapeStart` is unchanged on this path, so the index is never
stale). -/
def setTapeCell (m : TM) (st : TMSt) (position : Int) (symbol : String) : Option TMSt :=
  if position - st.visibleTapeStart < 0 then none
  else
    let st2 := (tapeExtendRight m)^[(position - st.visibleTapeStart).toNat + 1 - st.tape.length] st
    some { st2 with tape := st2.tape.set (position - st.visibleTapeStart).toNat symbol,
                    tapeAlphabet := jsAdd st2.tapeAlphabet symbol }

/-- The `L` head move of `TuringMachine.step()`: decrement, extending at the
left end when the head would fall off (head pinned to 0, window start moved). -/
def tmMoveLeft (m : TM) (st : TMSt) : TMSt :=
  if st.headPosition = 0 then
    { st with tape := m.blankSymbol :: st.tape,
              headPosition := 0,
              visibleTapeStart := st.visibleTapeStart - 1 }
  else { st with headPosition := st.headPosition - 1 }

/-- The `R` head move of `TuringMachine.step()`: increment, pushing a blank
when the head passes the end. -/
def tmMoveRight (m : TM) (st : TMSt) : TMSt :=
  if st.headPosition + 1 ≥ st.tape.length then
    { st with tape := st.tape ++ [m.blankSymbol],
              headPosition := st.headPosition + 1,
              visibleTapeEnd := st.visibleTapeEnd + 1 }
  else { st with headPosition := st.headPosition + 1 }

/-- `TuringMachine.getTapeString()`. -/
def getTapeString (st : TMSt) : String :=
  String.join st.tape

/-- `TuringMachine.initSimulation(input)` followed by `initializeTape`:
ten blanks, the input characters, blanks up to `visibleTapeEnd`
(`max 10 (input.length + 10)`), head at physical index 10. -/
def tmInitSimulation (m : TM) (input : List Char) : TMSt :=
  let vend : Nat := max 10 (input.length + 10)
  let tape := List.replicate 10 m.blankSymbol ++
      input.map (fun c => String.mk [c]) ++
      List.replicate (vend - input.length + 1) m.blankSymbol
  let cur := match m.auto.initialState with
    | some i => m.auto.getState i
    | none => none
  { tape := tape, headPosition := 10, visibleTapeStart := -10, visibleTapeEnd := vend,
    currentStates := cur,
    trace :=
      match cur with
      | some s =>
          [{ step := 0, states := [s.name], tape := String.join tape,
             headPosition := 0,
             symbol := some (tape[10]?.getD m.blankSymbol),
             description := "Start at " ++ s.name ++ ", reading '" ++
               (tape[10]?.getD m.blankSymbol) ++ "'" }]
      | none => [],
    isAccepted := none, inputIndex := 0,
    tapeAlphabet := input.foldl (fun al c => jsAdd al (String.mk [c])) m.tapeAlphabet }

/-- `TuringMachine.checkAcceptance()`: accept iff the active state is final
(a halt state that is not final rejects). -/
def tmCheckAcceptance (st : TMSt) : TMSt :=
  match st.currentStates with
  | none => { st with isAccepted := some false }
  | some s =>
      if s.isFinal || s.isHalt then { st with isAccepted := some s.isFinal }
      else { st with isAccepted := some false }

/-- The read-symbol match of `TuringMachine.step()`:
`readSym = t.readSymbol || blank`, matching the current cell directly or any
of the three blank spellings against a blank cell. -/
def tmReadMatches (m : TM) (t : Transition) (currentSymbol : Option String) : Bool :=
  let readSym := match t.readSymbol with
    | some r => if r = "" then m.blankSymbol else r
    | none => m.blankSymbol
  (currentSymbol == some readSym) ||
    (readSym == "□" && currentSymbol == some m.blankSymbol) ||
    (readSym == "_" && currentSymbol == some m.blankSymbol) ||
    (readSym == "" && currentSymbol == some m.blankSymbol)

/-- `typeof t.toState === 'object' ? t.toState : this.getState(t.toState)`,
as the state object. -/
def resolveToState (a : Automaton) (t : Transition) : Option State :=
  match t.toState with
  | some i => a.getState i
  | none => none

/-- `value || 'R'`. -/
def orR : Option String → String
  | some s => if s = "" then "R" else s
  | none => "R"

/-- `String.prototype.toUpperCase()`, as a character map over the string's
data (extensionally `String.toUpper`, spelled out so that concrete runs
reduce inside the kernel). -/
def jsToUpper (s : String) : String :=
  String.mk (s.data.map Char.toUpper)

/-- One `TuringMachine.step()`.  Returns the boolean the method returns and
the new state.  The only deviation from the source is the cell value written
when the head is physically outside the tape (unreachable from any
initialized simulation, where the head always sits inside the materialized
window): there the source would write JavaScript `undefined`, the model
writes the blank. -/
def tmStep (m : TM) (st : TMSt) : Bool × TMSt :=
  match st.currentStates with
  | none => (false, tmCheckAcceptance st)
  | some cur =>
    if cur.isHalt || cur.isFinal then (false, tmCheckAcceptance st)
    else
      match (m.auto.getTransitionsFrom cur.id).find?
          (fun t => tmReadMatches m t (st.tape[st.headPosition]?)) with
      | some vt =>
          match resolveToState m.auto vt with
          | none => (false, { st with isAccepted := some false })
          | some nextState =>
              let currentSymbol := st.tape[st.headPosition]?
              let writeSym0 : Option String :=
                match vt.writeSymbol with
                | some w => if w = "" then currentSymbol else some w
                | none => currentSymbol
              let actualWrite : String :=
                match writeSym0 with
                | some w => if w = "□" || w = "_" || w = "" then m.blankSymbol else w
                | none => m.blankSymbol
              let st1 := { st with tape := st.tape.set st.headPosition actualWrite }
              let dir := jsToUpper (orR vt.direction)
              let st2 :=
                if dir = "L" then tmMoveLeft m st1
                else if dir = "R" then tmMoveRight m st1
                else st1
              let logicalHeadPos := (st2.headPosition : Int) + st2.visibleTapeStart
              let st3 := { st2 with
                currentStates := some nextState,
                trace := st2.trace ++
                  [{ step := st2.trace.length, states := [nextState.name],
                     tape := getTapeString st2, headPosition := logicalHeadPos,
                     symbol := st2.tape[st2.headPosition]?,
                     description := "Read '" ++ (currentSymbol.getD "undefined") ++
                       "', write '" ++ actualWrite ++ "', move " ++ dir ++ ": " ++
                       cur.name ++ " → " ++ nextState.name }],
                inputIndex := st2.inputIndex + 1 }
              if nextState.isHalt || nextState.isFinal then
                (false, tmCheckAcceptance st3)
              else
                (true, st3)
      | none =>
          (false,
            { st with
              trace := st.trace ++
                [{ step := st.trace.length, states := [cur.name],
                   tape := getTapeString st,
                   headPosition := (st.headPosition : Int) + st.visibleTapeStart,
                   symbol := st.tape[st.headPosition]?,
                   description := "No transition for '" ++
                     ((st.tape[st.headPosition]?).getD "undefined") ++
                     "' from " ++ cur.name ++ " - HALT" }],
              isAccepted := some false })

/-- The loop-detector condition of `TuringMachine.run`: at trace length over
100, more than two of the most recent 50 entries carry the current (last)
entry's (state, logical head position, tape string) triple. -/
def tmLoopDetect (trace : List TMTrace) : Bool :=
  if trace.length > 100 then
    match trace.getLast? with
    | some current =>
        ((trace.drop (trace.length - 50)).filter (fun t =>
            t.states.head? == current.states.head? &&
            t.headPosition == current.headPosition &&
            t.tape == current.tape)).length > 2
    | none => false
  else false

/-- The trace entry the loop guard appends. -/
def loopGuardEntry (trace : List TMTrace) (current : TMTrace) : TMTrace :=
  { step := trace.length, states := current.states, tape := current.tape,
    headPosition := current.headPosition, symbol := current.symbol,
    description := "Potential infinite loop detected - halting" }

/-- Appending the loop-guard entry when the detector fires. -/
def tmHaltWithGuard (st : TMSt) : TMSt :=
  { st with trace := st.trace ++ [loopGuardEntry st.trace ((st.trace.getLast?).getD default)] }

/-- How the `TuringMachine.run` loop stopped. -/
inductive TMExit where
  | budget
  | stepEnd
  | loopGuard
deriving DecidableEq

/-- The loop of `TuringMachine.run(maxSteps)` (default `maxSteps = 10000`):
step, stop when the step reports a halt, stop early appending the guard entry
when the detector fires.  Also returns the number of executed steps and why
the loop stopped. -/
def tmRunGo (m : TM) : Nat → TMSt → Nat → TMSt × Nat × TMExit
  | 0, st, steps => (st, steps, TMExit.budget)
  | fuel + 1, st, steps =>
      match tmStep m st with
      | (continued, st') =>
          if !continued then (st', steps + 1, TMExit.stepEnd)
          else if tmLoopDetect st'.trace then
            (tmHaltWithGuard st', steps + 1, TMExit.loopGuard)
          else tmRunGo m fuel st' (steps + 1)

/-- `TuringMachine.run(maxSteps)`: the loop, then `checkAcceptance` when the
verdict is still undecided. -/
def tmRun (m : TM) (maxSteps : Nat) (st : TMSt) : TMSt × Nat × TMExit :=
  match tmRunGo m maxSteps st 0 with
  | (st', steps, ex) =>
      (if st'.isAccepted == none then tmCheckAcceptance st' else st', steps, ex)

/-- The logical coordinate of the head: physical index plus window start. -/
def logicalHead (st : TMSt) : Int :=
  (st.headPosition : Int) + st.visibleTapeStart

lemma getTapeCell_cons_shift (m : TM) (st st' : TMSt)
    (h1 : st'.tape = m.blankSymbol :: st.tape)
    (h2 : st'.visibleTapeStart = st.visibleTapeStart - 1) (q : Int) :
    getTapeCell m st' q = getTapeCell m st q := by
  unfold getTapeCell
  rw [h1, h2]
  have hq : q - (st.visibleTapeStart - 1) = (q - st.visibleTapeStart) + 1 := by omega
  rw [hq]
  by_cases h3 : (q - st.visibleTapeStart) + 1 < 0
  · rw [if_pos h3, if_pos (by omega)]
  · rw [if_neg h3]
    by_cases h4 : q - st.visibleTapeStart < 0
    · rw [if_pos h4]
      have h6 : ((q - st.visibleTapeStart) + 1).toNat = 0 := by omega
      rw [h6]
      simp
    · rw [if_neg h4]
      have h5 : ((q - st.visibleTapeStart) + 1).toNat = (q - st.visibleTapeStart).toNat + 1 := by
        omega
      rw [h5, List.getElem?_cons_succ]

lemma getTapeCell_push_right (m : TM) (st st' : TMSt)
    (h1 : st'.tape = st.tape ++ [m.blankSymbol])
    (h2 : st'.visibleTapeStart = st.visibleTapeStart) (q : Int) :
    getTapeCell m st' q = getTapeCell m st q := by
  unfold getTapeCell
  rw [h1, h2]
  by_cases h3 : q - st.visibleTapeStart < 0
  · rw [if_pos h3, if_pos h3]
  · rw [if_neg h3, if_neg h3]
    by_cases h4 : (q - st.visibleTapeStart).toNat < st.tape.length
    · rw [List.getElem?_append_left h4]
    · rw [List.getElem?_append_right (by omega),
          List.getElem?_eq_none (l := st.tape) (by omega)]
      rcases Nat.eq_zero_or_pos ((q - st.visibleTapeStart).toNat - st.tape.length) with h6 | h6
      · rw [h6]; simp
      · rw [List.getElem?_eq_none (by simp only [List.length_singleton]; omega)]

lemma getTapeCell_iter_left (m : TM) (st : TMSt) (k : Nat) (q : Int) :
    getTapeCell m ((tapeExtendLeft m)^[k] st) q = getTapeCell m st q := by
  induction k with
  | zero => rfl
  | succ n ih =>
    rw [Function.iterate_succ_apply']
    rw [getTapeCell_cons_shift m ((tapeExtendLeft m)^[n] st) _ rfl rfl q]
    exact ih

lemma getTapeCell_iter_right (m : TM) (st : TMSt) (k : Nat) (q : Int) :
    getTapeCell m ((tapeExtendRight m)^[k] st) q = getTapeCell m st q := by
  induction k with
  | zero => rfl
  | succ n ih =>
    rw [Function.iterate_succ_apply']
    rw [getTapeCell_push_right m ((tapeExtendRight m)^[n] st)
        (tapeExtendRight m ((tapeExtendRight m)^[n] st)) rfl rfl q]
    exact ih

lemma iter_left_fields (m : TM) (st : TMSt) (k : Nat) :
    ((tapeExtendLeft m)^[k] st).visibleTapeStart = st.visibleTapeStart - k ∧
    ((tapeExtendLeft m)^[k] st).tape.length = k + st.tape.length ∧
    ((tapeExtendLeft m)^[k] st).headPosition = st.headPosition + k := by
  induction k with
  | zero => exact ⟨by simp, by simp, by simp⟩
  | succ n ih =>
    rw [Function.iterate_succ_apply']
    refine ⟨?_, ?_, ?_⟩
    · show ((tapeExtendLeft m)^[n] st).visibleTapeStart - 1 = _
      rw [ih.1]; push_cast; ring
    · show (m.blankSymbol :: ((tapeExtendLeft m)^[n] st).tape).length = _
      simp [ih.2.1]; omega
    · show ((tapeExtendLeft m)^[n] st).headPosition + 1 = _
      rw [ih.2.2]; omega

lemma iter_right_fields (m : TM) (st : TMSt) (k : Nat) :
    ((tapeExtendRight m)^[k] st).visibleTapeStart = st.visibleTapeStart ∧
    ((tapeExtendRight m)^[k] st).tape.length = st.tape.length + k ∧
    ((tapeExtendRight m)^[k] st).headPosition = st.headPosition := by
  induction k with
  | zero => exact ⟨rfl, by simp, rfl⟩
  | succ n ih =>
    rw [Function.iterate_succ_apply']
    refine ⟨ih.1, ?_, ih.2.2⟩
    show (((tapeExtendRight m)^[n] st).tape ++ [m.blankSymbol]).length = _
    simp [ih.2.1]; omega

lemma getTapeCell_set_record (m : TM) (st2 : TMSt) (sym : String) (p q : Int)
    (al : List String)
    (hpnn : 0 ≤ p - st2.visibleTapeStart)
    (hidx : (p - st2.visibleTapeStart).toNat < st2.tape.length) :
    getTapeCell m { st2 with tape := st2.tape.set (p - st2.visibleTapeStart).toNat sym,
                             tapeAlphabet := al } q =
      if q = p then sym else getTapeCell m st2 q := by
  unfold getTapeCell
  dsimp only
  by_cases hqp : q = p
  · rw [if_pos hqp, hqp, if_neg (by omega), List.getElem?_set_eq_of_lt sym hidx]
    rfl
  · rw [if_neg hqp]
    by_cases hq : q - st2.visibleTapeStart < 0
    · rw [if_pos hq, if_pos hq]
    · rw [if_neg hq, if_neg hq, List.getElem?_set_ne (by omega)]

/-- `setTapeCell` completes exactly for positions at or right of the window
start; left of it the source loops forever. -/
lemma setTapeCell_isSome (m : TM) (st : TMSt) (p : Int) (sym : String) :
    (setTapeCell m st p sym).isSome = true ↔ st.visibleTapeStart ≤ p := by
  unfold setTapeCell
  by_cases h : p - st.visibleTapeStart < 0
  · rw [if_pos h]
    simp only [Option.isSome_none, Bool.false_eq_true, false_iff]
    omega
  · rw [if_neg h]
    simp only [Option.isSome_some, true_iff]
    omega

lemma getTapeCell_setTapeCell (m : TM) (st : TMSt) (p : Int) (sym : String)
    (st' : TMSt) (h : setTapeCell m st p sym = some st') (q : Int) :
    getTapeCell m st' q = if q = p then sym else getTapeCell m st q := by
  unfold setTapeCell at h
  by_cases hp : p - st.visibleTapeStart < 0
  · rw [if_pos hp] at h
    exact absurd h (by simp)
  rw [if_neg hp] at h
  set j := (p - st.visibleTapeStart).toNat + 1 - st.tape.length with hj
  set st2 := (tapeExtendRight m)^[j] st with hst2
  obtain ⟨hs2, hl2, hh2⟩ := iter_right_fields m st j
  obtain rfl := Option.some.inj h
  have hvs : p - st.visibleTapeStart = p - st2.visibleTapeStart := by rw [hs2]
  rw [hvs]
  have hpnn : 0 ≤ p - st2.visibleTapeStart := by
    rw [hs2]
    omega
  have hidx : (p - st2.visibleTapeStart).toNat < st2.tape.length := by
    rw [hl2, hs2]
    omega
  rw [getTapeCell_set_record m st2 sym p q _ hpnn hidx]
  by_cases hqp : q = p
  · rw [if_pos hqp, if_pos hqp]
  · rw [if_neg hqp, if_neg hqp, hst2, getTapeCell_iter_right]

lemma logicalHead_setTapeCell (m : TM) (st : TMSt) (p : Int) (sym : String)
    (st' : TMSt) (h : setTapeCell m st p sym = some st') :
    logicalHead st' = logicalHead st := by
  unfold setTapeCell at h
  by_cases hp : p - st.visibleTapeStart < 0
  · rw [if_pos hp] at h
    exact absurd h (by simp)
  rw [if_neg hp] at h
  set j := (p - st.visibleTapeStart).toNat + 1 - st.tape.length with hj
  set st2 := (tapeExtendRight m)^[j] st with hst2
  obtain ⟨hs2, hl2, hh2⟩ := iter_right_fields m st j
  obtain rfl := Option.some.inj h
  show (st2.headPosition : Int) + st2.visibleTapeStart = (st.headPosition : Int) + st.visibleTapeStart
  rw [hh2, hs2]

lemma getTapeCell_moveLeft (m : TM) (st : TMSt) (q : Int) :
    getTapeCell m (tmMoveLeft m st) q = getTapeCell m st q := by
  unfold tmMoveLeft
  by_cases h : st.headPosition = 0
  · rw [if_pos h]
    exact getTapeCell_cons_shift m st _ rfl rfl q
  · rw [if_neg h]
    rfl

lemma getTapeCell_moveRight (m : TM) (st : TMSt) (q : Int) :
    getTapeCell m (tmMoveRight m st) q = getTapeCell m st q := by
  unfold tmMoveRight
  by_cases h : st.headPosition + 1 ≥ st.tape.length
  · rw [if_pos h]
    exact getTapeCell_push_right m st
      { st with tape := st.tape ++ [m.blankSymbol],
                headPosition := st.headPosition + 1,
                visibleTapeEnd := st.visibleTapeEnd + 1 } rfl rfl q
  · rw [if_neg h]
    rfl

lemma logicalHead_moveLeft (m : TM) (st : TMSt) :
    logicalHead (tmMoveLeft m st) = logicalHead st - 1 := by
  unfold tmMoveLeft logicalHead
  by_cases h : st.headPosition = 0
  · rw [if_pos h]
    show ((0 : Nat) : Int) + (st.visibleTapeStart - 1) =
      (st.headPosition : Int) + st.visibleTapeStart - 1
    omega
  · rw [if_neg h]
    show ((st.headPosition - 1 : Nat) : Int) + st.visibleTapeStart =
      (st.headPosition : Int) + st.visibleTapeStart - 1
    omega

lemma logicalHead_moveRight (m : TM) (st : TMSt) :
    logicalHead (tmMoveRight m st) = logicalHead st + 1 := by
  unfold tmMoveRight logicalHead
  by_cases h : st.headPosition + 1 ≥ st.tape.length
  · rw [if_pos h]
    show ((st.headPosition + 1 : Nat) : Int) + st.visibleTapeStart =
      (st.headPosition : Int) + st.visibleTapeStart + 1
    omega
  · rw [if_neg h]
    show ((st.headPosition + 1 : Nat) : Int) + st.visibleTapeStart =
      (st.headPosition : Int) + st.visibleTapeStart + 1
    omega

/-- The tape-affecting operations of the claim: a `setTapeCell` write at a
logical position, and the two head moves of `step`. -/
inductive TapeOp where
  | write (p : Int) (sym : String)
  | moveL
  | moveR
deriving DecidableEq

/-- Apply one tape operation to the simulation state; a write left of the
window diverges in the source, hence `none`. -/
def applyTapeOp (m : TM) (st : TMSt) : TapeOp → Option TMSt
  | .write p sym => setTapeCell m st p sym
  | .moveL => some (tmMoveLeft m st)
  | .moveR => some (tmMoveRight m st)

/-- Apply a sequence of tape operations, propagating divergence. -/
def applyTapeOps (m : TM) : List TapeOp → TMSt → Option TMSt
  | [], st => some st
  | op :: ops, st =>
      match applyTapeOp m st op with
      | none => none
      | some st1 => applyTapeOps m ops st1

/-- The abstract effect of a tape operation on the logical cell map. -/
def tapeOpCells (f : Int → String) : TapeOp → Int → String
  | .write p sym => fun q => if q = p then sym else f q
  | .moveL => f
  | .moveR => f

/-- The abstract effect of a tape operation on the logical head coordinate. -/
def tapeOpHead (h : Int) : TapeOp → Int
  | .write _ _ => h
  | .moveL => h - 1
  | .moveR => h + 1

lemma foldl_tapeOpCells_congr (ops : List TapeOp) :
    ∀ (f g : Int → String), (∀ q, f q = g q) →
      ∀ q, (ops.foldl tapeOpCells f) q = (ops.foldl tapeOpCells g) q := by
  induction ops with
  | nil => intro f g h q; exact h q
  | cons op rest ih =>
    intro f g h q
    refine ih _ _ ?_ q
    intro r
    cases op with
    | write p sym =>
      show (if r = p then sym else f r) = (if r = p then sym else g r)
      by_cases hr : r = p <;> simp [hr, h r]
    | moveL => exact h r
    | moveR => exact h r

/-- C7 (amended): reads through `getTapeCell` are invariant under tape
growth — the left-extension (unshift a blank, decrement `visibleTapeStart`,
compensate the head) and the right-extension each leave every logical cell
and the head's logical coordinate unchanged.  A `setTapeCell` write
completes exactly when its position is at or right of the window start — for
a position strictly left of it the source's `while (index < 0)` loop tests a
once-computed constant and never terminates (see `C7_counterexample`) — and
over any sequence of completing writes and head moves the concrete tape
refines the abstract map on logical coordinates: a write changes exactly its
own cell, moves shift the logical head by one and disturb no cell. -/
theorem C7_tape_stability (m : TM) :
    (∀ (st : TMSt) (q : Int), getTapeCell m (tapeExtendLeft m st) q = getTapeCell m st q) ∧
    (∀ st : TMSt, logicalHead (tapeExtendLeft m st) = logicalHead st) ∧
    (∀ (st : TMSt) (q : Int), getTapeCell m (tapeExtendRight m st) q = getTapeCell m st q) ∧
    (∀ st : TMSt, logicalHead (tapeExtendRight m st) = logicalHead st) ∧
    (∀ (st : TMSt) (p : Int) (sym : String),
        (setTapeCell m st p sym).isSome = true ↔ st.visibleTapeStart ≤ p) ∧
    (∀ (ops : List TapeOp) (st st' : TMSt), applyTapeOps m ops st = some st' →
        ∀ q : Int, getTapeCell m st' q = (ops.foldl tapeOpCells (getTapeCell m st)) q) ∧
    (∀ (ops : List TapeOp) (st st' : TMSt), applyTapeOps m ops st = some st' →
        logicalHead st' = ops.foldl tapeOpHead (logicalHead st)) := by
  have hopcells : ∀ (st st1 : TMSt) (op : TapeOp), applyTapeOp m st op = some st1 →
      ∀ q : Int, getTapeCell m st1 q = tapeOpCells (getTapeCell m st) op q := by
    intro st st1 op h q
    cases op with
    | write p sym => exact getTapeCell_setTapeCell m st p sym st1 h q
    | moveL =>
      obtain rfl := Option.some.inj h
      exact getTapeCell_moveLeft m st q
    | moveR =>
      obtain rfl := Option.some.inj h
      exact getTapeCell_moveRight m st q
  have hophead : ∀ (st st1 : TMSt) (op : TapeOp), applyTapeOp m st op = some st1 →
      logicalHead st1 = tapeOpHead (logicalHead st) op := by
    intro st st1 op h
    cases op with
    | write p sym => exact logicalHead_setTapeCell m st p sym st1 h
    | moveL =>
      obtain rfl := Option.some.inj h
      exact logicalHead_moveLeft m st
    | moveR =>
      obtain rfl := Option.some.inj h
      exact logicalHead_moveRight m st
  refine ⟨?_, ?_, ?_, ?_, setTapeCell_isSome m, ?_, ?_⟩
  · intro st q
    exact getTapeCell_cons_shift m st _ rfl rfl q
  · intro st
    show ((st.headPosition + 1 : Nat) : Int) + (st.visibleTapeStart - 1) =
      (st.headPosition : Int) + st.visibleTapeStart
    omega
  · intro st q
    exact getTapeCell_push_right m st (tapeExtendRight m st) rfl rfl q
  · intro st
    rfl
  · intro ops
    induction ops with
    | nil =>
      intro st st' h q
      obtain rfl := Option.some.inj h
      rfl
    | cons op rest ih =>
      intro st st' h q
      rcases hop : applyTapeOp m st op with _ | st1
      · rw [show applyTapeOps m (op :: rest) st =
            (match applyTapeOp m st op with
             | none => none
             | some st1 => applyTapeOps m rest st1) from rfl, hop] at h
        exact absurd h (by simp)
      · rw [show applyTapeOps m (op :: rest) st =
            (match applyTapeOp m st op with
             | none => none
             | some st1 => applyTapeOps m rest st1) from rfl, hop] at h
        rw [List.foldl_cons]
        rw [ih st1 st' h q]
        exact foldl_tapeOpCells_congr rest _ _ (hopcells st st1 op hop) q
  · intro ops
    induction ops with
    | nil =>
      intro st st' h
      obtain rfl := Option.some.inj h
      rfl
    | cons op rest ih =>
      intro st st' h
      rcases hop : applyTapeOp m st op with _ | st1
      · rw [show applyTapeOps m (op :: rest) st =
            (match applyTapeOp m st op with
             | none => none
             | some st1 => applyTapeOps m rest st1) from rfl, hop] at h
        exact absurd h (by simp)
      · rw [show applyTapeOps m (op :: rest) st =
            (match applyTapeOp m st op with
             | none => none
             | some st1 => applyTapeOps m rest st1) from rfl, hop] at h
        rw [List.foldl_cons, ih st1 st' h, hophead st st1 op hop]

lemma tmMoveLeft_isAccepted (m : TM) (st : TMSt) :
    (tmMoveLeft m st).isAccepted = st.isAccepted := by
  unfold tmMoveLeft; split <;> rfl

lemma tmMoveRight_isAccepted (m : TM) (st : TMSt) :
    (tmMoveRight m st).isAccepted = st.isAccepted := by
  unfold tmMoveRight; split <;> rfl

/-- A step that returns `true` keeps the verdict undecided and leaves the
machine in a state that is neither final nor halting. -/
lemma tmStep_true (m : TM) (st : TMSt) (c : Bool) (st' : TMSt)
    (hstep : tmStep m st = (c, st')) (hc : c = true) :
    st'.isAccepted = st.isAccepted ∧
    ∃ q, st'.currentStates = some q ∧ q.isFinal = false ∧ q.isHalt = false := by
  subst hc
  unfold tmStep at hstep
  split at hstep
  · simp at hstep
  · split at hstep
    · simp at hstep
    · split at hstep
      · split at hstep
        · simp at hstep
        · dsimp only at hstep
          split at hstep
          · simp at hstep
          · rename_i hnf
            rw [Prod.mk.injEq] at hstep
            obtain ⟨-, hsnd⟩ := hstep
            subst hsnd
            simp only [Bool.or_eq_true, not_or, Bool.not_eq_true] at hnf
            constructor
            · dsimp only
              split
              · rw [tmMoveLeft_isAccepted]
              · split
                · rw [tmMoveRight_isAccepted]
                · rfl
            · exact ⟨_, rfl, hnf.2, hnf.1⟩
      · simp at hstep

lemma tmRunGo_steps_le (m : TM) : ∀ (fuel : Nat) (st : TMSt) (steps : Nat),
    (tmRunGo m fuel st steps).2.1 ≤ steps + fuel := by
  intro fuel
  induction fuel with
  | zero =>
    intro st steps
    simp [tmRunGo]
  | succ n ih =>
    intro st steps
    unfold tmRunGo
    rcases hstep : tmStep m st with ⟨c, st'⟩
    dsimp only
    by_cases hc : c = true
    · rw [if_neg (by simp [hc])]
      by_cases hd : tmLoopDetect st'.trace = true
      · rw [if_pos hd]
        show steps + 1 ≤ steps + (n + 1)
        omega
      · rw [if_neg hd]
        have := ih st' (steps + 1)
        omega
    · rw [if_pos (by simp [Bool.of_not_eq_true hc])]
      show steps + 1 ≤ steps + (n + 1)
      omega

lemma tmRunGo_loopGuard (m : TM) : ∀ (fuel : Nat) (st : TMSt) (steps : Nat),
    st.isAccepted = none →
    (tmRunGo m fuel st steps).2.2 = TMExit.loopGuard →
    (tmRunGo m fuel st steps).1.isAccepted = none ∧
    ∃ q, (tmRunGo m fuel st steps).1.currentStates = some q ∧
      q.isFinal = false ∧ q.isHalt = false := by
  intro fuel
  induction fuel with
  | zero =>
    intro st steps hacc hex
    simp [tmRunGo] at hex
  | succ n ih =>
    intro st steps hacc hex
    unfold tmRunGo at hex ⊢
    rcases hstep : tmStep m st with ⟨c, st'⟩
    rw [hstep] at hex
    dsimp only at hex ⊢
    by_cases hc : c = true
    · rw [if_neg (by simp [hc])] at hex ⊢
      obtain ⟨hacc', q, hq, hf, hh⟩ := tmStep_true m st c st' hstep hc
      by_cases hd : tmLoopDetect st'.trace = true
      · rw [if_pos hd] at hex ⊢
        refine ⟨?_, q, ?_, hf, hh⟩
        · show (tmHaltWithGuard st').isAccepted = none
          show st'.isAccepted = none
          rw [hacc', hacc]
        · exact hq
      · rw [if_neg hd] at hex ⊢
        exact ih st' (steps + 1) (by rw [hacc', hacc]) hex
    · rw [if_pos (by simp [Bool.of_not_eq_true hc])] at hex
      simp at hex

/-- C6: `TuringMachine.run(maxSteps)` (default `maxSteps = 10000`) performs at
most `maxSteps` steps; whenever a step continues and the loop detector fires
on the resulting trace (at trace length over 100, more than two of the most
recent 50 entries share the current entry's state, head logical position and
tape string), the loop stops right there regardless of remaining budget, the
"Potential infinite loop detected - halting" entry is appended as the last
trace entry, and the final verdict is `isAccepted = false` because the active
state is neither final nor halting. -/
theorem C6_tm_run_loop_guard (m : TM) :
    (∀ (maxSteps : Nat) (st : TMSt) (steps0 : Nat),
        (tmRunGo m maxSteps st steps0).2.1 ≤ steps0 + maxSteps) ∧
    (∀ (st : TMSt) (fuel steps : Nat), (tmStep m st).1 = true →
        tmLoopDetect ((tmStep m st).2).trace = true →
        tmRunGo m (fuel + 1) st steps =
          (tmHaltWithGuard (tmStep m st).2, steps + 1, TMExit.loopGuard) ∧
        ((tmHaltWithGuard (tmStep m st).2).trace.getLast?.map TMTrace.description =
          some "Potential infinite loop detected - halting")) ∧
    (∀ (maxSteps : Nat) (st : TMSt), st.isAccepted = none →
        (tmRunGo m maxSteps st 0).2.2 = TMExit.loopGuard →
        (tmRun m maxSteps st).1.isAccepted = some false) := by
  refine ⟨tmRunGo_steps_le m, ?_, ?_⟩
  · intro st fuel steps h1 h2
    constructor
    · rcases hstep : tmStep m st with ⟨c, st'⟩
      rw [hstep] at h1 h2
      have hc : c = true := h1
      have hd : tmLoopDetect st'.trace = true := h2
      unfold tmRunGo
      rw [hstep]
      dsimp only
      rw [if_neg (by simp [hc]), if_pos hd]
    · unfold tmHaltWithGuard
      show ((tmStep m st).2.trace ++ [loopGuardEntry _ _]).getLast?.map TMTrace.description = _
      rw [List.getLast?_concat]
      rfl
  · intro maxSteps st hacc hex
    obtain ⟨hnone, q, hq, hf, hh⟩ := tmRunGo_loopGuard m maxSteps st 0 hacc hex
    unfold tmRun
    rcases hgo : tmRunGo m maxSteps st 0 with ⟨st', steps, ex⟩
    rw [hgo] at hnone hq
    simp only at hnone hq ⊢
    rw [if_pos (by simp [hnone])]
    unfold tmCheckAcceptance
    rw [hq]
    dsimp only
    rw [if_neg (by simp [hf, hh])]

/-- A TM that stays in place forever: q0 on blank writes blank and stays.
Its trace repeats one configuration, so the loop detector fires. -/
def tmStayAuto : Automaton :=
  { type := "tm",
    states := [{ id := 0, name := "q0", x := 100, y := 100,
                 isInitial := true, isFinal := false, isHalt := false }],
    transitions := [{ id := 0, fromState := some 0, toState := some 0,
                      symbols := [], readSymbol := some "□",
                      writeSymbol := some "□", direction := some "S" }],
    alphabet := [], initialState := some 0 }

/-- The stay-machine as a `TM` (default blank and tape alphabet). -/
def tmStay : TM :=
  { auto := tmStayAuto }

/-- The simulation state of `tmStay` on empty input after 99 steps: the trace
holds 100 identical configurations, so the next step trips the detector. -/
def tmStay99 : TMSt :=
  (tmRunGo tmStay 99 (tmInitSimulation tmStay []) 0).1

/-- Witness for C6: on `tmStay` the detector fires right after step 100, the
run exits with the loop-guard entry, and the default 10000-step run rejects. -/
theorem C6_tm_run_loop_guard_witness :
    (tmStep tmStay tmStay99).1 = true ∧
    tmLoopDetect ((tmStep tmStay tmStay99).2).trace = true ∧
    (tmInitSimulation tmStay []).isAccepted = none ∧
    (tmRunGo tmStay 10000 (tmInitSimulation tmStay []) 0).2.2 = TMExit.loopGuard ∧
    ((tmHaltWithGuard (tmStep tmStay tmStay99).2).trace.getLast?.map TMTrace.description =
      some "Potential infinite loop detected - halting") ∧
    (tmRun tmStay 10000 (tmInitSimulation tmStay [])).1.isAccepted = some false := by
  have h1 : (tmStep tmStay tmStay99).1 = true := by decide
  have h2 : tmLoopDetect ((tmStep tmStay tmStay99).2).trace = true := by decide
  have h4 : (tmRunGo tmStay 10000 (tmInitSimulation tmStay []) 0).2.2 = TMExit.loopGuard := by
    decide
  refine ⟨h1, h2, rfl, h4, ?_, ?_⟩
  · exact ((C6_tm_run_loop_guard tmStay).2.1 tmStay99 0 0 h1 h2).2
  · exact (C6_tm_run_loop_guard tmStay).2.2 10000 (tmInitSimulation tmStay []) rfl h4

/-- C7 counterexample: the claim quantifies over every `setTapeCell` write,
but a write strictly left of the materialized window never completes — the
source's left-extension loop `while (index < 0)` tests the once-computed
`const index`, which its body never updates, so the loop condition holds at
every turn regardless of how much fuel is granted; there is no resulting
tape whose cells could be stable.  Concretely, on the freshly initialized
`tmStay` tape (window start `-10`) a write at logical position `-11`
diverges. -/
theorem C7_counterexample :
    (∀ (fuel : Nat) (st : TMSt), setTapeLeftLoop tmStay (-1) fuel st = none) ∧
    setTapeCell tmStay (tmInitSimulation tmStay []) (-11) "x" = none := by
  constructor
  · intro fuel
    induction fuel with
    | zero =>
      intro st
      rfl
    | succ n ih =>
      intro st
      show (if (-1 : Int) < 0 then setTapeLeftLoop tmStay (-1) n (tapeExtendLeft tmStay st)
            else some st) = none
      rw [if_pos (by decide)]
      exact ih _
  · rfl

/-- A concrete in-window write/move sequence for the C7 witness. -/
def c7Ops : List TapeOp :=
  [TapeOp.write 0 "x", TapeOp.moveR, TapeOp.write 1 "y", TapeOp.moveL]

def c7St : TMSt := tmInitSimulation tmStay []

theorem C7_tape_stability_witness :
    applyTapeOps tmStay c7Ops c7St = some ((applyTapeOps tmStay c7Ops c7St).getD c7St) ∧
    getTapeCell tmStay ((applyTapeOps tmStay c7Ops c7St).getD c7St) 0 =
      (c7Ops.foldl tapeOpCells (getTapeCell tmStay c7St)) 0 ∧
    logicalHead ((applyTapeOps tmStay c7Ops c7St).getD c7St) =
      c7Ops.foldl tapeOpHead (logicalHead c7St) := by
  refine ⟨by rfl, ?_, ?_⟩
  · exact (C7_tape_stability tmStay).2.2.2.2.2.1 c7Ops c7St _ (by rfl) 0
  · exact (C7_tape_stability tmStay).2.2.2.2.2.2 c7Ops c7St _ (by rfl)

/-! ### NFA ε-closure (claim C5, reused by the subset construction)

The closure worklist keeps a JavaScript `Set` of state objects and an array
popped from the end; the model keeps a `Finset` of ids and pops the head of a
list, so the seed is reversed and pushes are conses, preserving the LIFO
order.  The loop terminates because each iteration pops one entry and every
push adds a previously unseen state to the closure, so
`epsilonClosure` hands the loop `|states| + |seed| + 1` fuel, which the spec
lemma shows drains the stack. -/

/-- The set of state ids of an automaton. -/
def idSet (a : Automaton) : Finset Nat :=
  (a.states.map State.id).toFinset

lemma getState_isSome_iff (a : Automaton) (i : Nat) :
    (a.getState i).isSome = true ↔ i ∈ idSet a := by
  unfold Automaton.getState idSet
  rw [List.find?_isSome]
  constructor
  · rintro ⟨s, hs, hid⟩
    rw [List.mem_toFinset, List.mem_map]
    exact ⟨s, hs, by simpa using hid⟩
  · intro h
    rw [List.mem_toFinset, List.mem_map] at h
    obtain ⟨s, hs, hid⟩ := h
    exact ⟨s, hs, by simp [hid]⟩

/-- The resolvable targets of the ε-transitions out of a state, in
transition order (`epsilonTransitions.forEach` with the `getState`
resolution and the `if (toState)` guard). -/
def epsSuccIds (a : Automaton) (q : Nat) : List Nat :=
  ((a.getTransitionsFrom q).filter (fun t => t.isEpsilon)).filterMap
    (fun t => match t.toState with
      | some r => if (a.getState r).isSome then some r else none
      | none => none)

lemma epsSuccIds_subset_idSet (a : Automaton) (q : Nat) :
    ∀ r ∈ epsSuccIds a q, r ∈ idSet a := by
  intro rr hr
  unfold epsSuccIds at hr
  rw [List.mem_filterMap] at hr
  obtain ⟨t, -, ht⟩ := hr
  rcases hto : t.toState with - | rt
  · rw [hto] at ht; simp at ht
  · rw [hto] at ht
    dsimp only at ht
    by_cases hg : (a.getState rt).isSome = true
    · rw [if_pos hg] at ht
      have heq : rt = rr := by simpa using ht
      rw [← heq]
      exact (getState_isSome_iff a rt).mp hg
    · rw [if_neg hg] at ht; simp at ht

/-- The `forEach` over the ε-successors of the popped state: unseen targets
are added to the closure and pushed onto the stack. -/
def processEps (closure : Finset Nat) (stack : List Nat) (succs : List Nat) :
    Finset Nat × List Nat :=
  succs.foldl (fun acc r =>
    if r ∈ acc.1 then acc else (insert r acc.1, r :: acc.2)) (closure, stack)

/-- The worklist loop of `NFA.epsilonClosure`. -/
def epsilonClosureGo (a : Automaton) : Nat → Finset Nat → List Nat → Finset Nat
  | 0, closure, _ => closure
  | _ + 1, closure, [] => closure
  | fuel + 1, closure, current :: rest =>
      match a.getState current with
      | none => epsilonClosureGo a fuel closure rest
      | some st =>
          match processEps closure rest (epsSuccIds a st.id) with
          | (closure', stack') => epsilonClosureGo a fuel closure' stack'

/-- `NFA.epsilonClosure(states)` on a list of state ids. -/
def epsilonClosure (a : Automaton) (inp : List Nat) : Finset Nat :=
  epsilonClosureGo a (a.states.length + inp.length + 1)
    ((inp.filterMap (fun i => if (a.getState i).isSome then some i else none)).toFinset)
    inp.reverse

/-- `NFA.epsilonClosure` applied to a set of states (enumerated in sorted
order; the worklist result does not depend on the enumeration order, and none
of the proved properties mention it). -/
def epsilonClosureF (a : Automaton) (S : Finset Nat) : Finset Nat :=
  epsilonClosure a (S.sort (· ≤ ·))

/-- A set of ids closed under following resolvable ε-transitions. -/
def epsClosed (a : Automaton) (C : Finset Nat) : Prop :=
  ∀ q ∈ C, ∀ r ∈ epsSuccIds a q, r ∈ C

lemma processEps_spec (succs : List Nat) : ∀ (c : Finset Nat) (s : List Nat),
    c ⊆ (processEps c s succs).1 ∧
    (∀ r ∈ succs, r ∈ (processEps c s succs).1) ∧
    (processEps c s succs).1 ⊆ c ∪ succs.toFinset ∧
    (∀ x ∈ (processEps c s succs).2, x ∈ s ∨ x ∈ (processEps c s succs).1) ∧
    (∀ x ∈ s, x ∈ (processEps c s succs).2) ∧
    (∀ q ∈ (processEps c s succs).1, q ∉ c → q ∈ (processEps c s succs).2) ∧
    (∃ k, (processEps c s succs).1.card = c.card + k ∧
          (processEps c s succs).2.length = s.length + k) := by
  induction succs with
  | nil =>
    intro c s
    have h : processEps c s [] = (c, s) := rfl
    rw [h]
    exact ⟨subset_rfl, by simp, by simp, fun x hx => Or.inl hx, fun x hx => hx,
      fun q hq hqc => absurd hq hqc, 0, by simp, by simp⟩
  | cons r rest ih =>
    intro c s
    show _ ∧ (∀ x ∈ r :: rest, _) ∧ _
    by_cases hr : r ∈ c
    · have hfold : processEps c s (r :: rest) = processEps c s rest := by
        unfold processEps
        rw [List.foldl_cons, if_pos hr]
      rw [hfold]
      obtain ⟨i1, i2, i3, i4, i5, i6, i7⟩ := ih c s
      refine ⟨i1, ?_, ?_, i4, i5, i6, i7⟩
      · intro x hx
        rcases List.mem_cons.mp hx with rfl | hx
        · exact i1 hr
        · exact i2 x hx
      · intro x hx
        have := i3 hx
        rw [Finset.mem_union] at this ⊢
        rcases this with h | h
        · exact Or.inl h
        · exact Or.inr (by simp [List.mem_toFinset] at h ⊢; exact Or.inr h)
    · have hfold : processEps c s (r :: rest) = processEps (insert r c) (r :: s) rest := by
        unfold processEps
        rw [List.foldl_cons, if_neg hr]
      rw [hfold]
      obtain ⟨i1, i2, i3, i4, i5, i6, i7⟩ := ih (insert r c) (r :: s)
      refine ⟨?_, ?_, ?_, ?_, ?_, ?_, ?_⟩
      · intro x hx
        exact i1 (Finset.mem_insert_of_mem hx)
      · intro x hx
        rcases List.mem_cons.mp hx with rfl | hx
        · exact i1 (Finset.mem_insert_self x c)
        · exact i2 x hx
      · intro x hx
        have := i3 hx
        rw [Finset.mem_union] at this ⊢
        rcases this with h | h
        · rcases Finset.mem_insert.mp h with rfl | h
          · exact Or.inr (by simp)
          · exact Or.inl h
        · exact Or.inr (by simp [List.mem_toFinset] at h ⊢; exact Or.inr h)
      · intro x hx
        rcases i4 x hx with h | h
        · rcases List.mem_cons.mp h with rfl | h
          · exact Or.inr (i1 (Finset.mem_insert_self x c))
          · exact Or.inl h
        · exact Or.inr h
      · intro x hx
        exact i5 x (by simp [hx])
      · intro q hq hqc
        by_cases hq2 : q ∈ insert r c
        · rcases Finset.mem_insert.mp hq2 with rfl | h
          · exact i5 q (by simp)
          · exact absurd h hqc
        · exact i6 q hq hq2
      · obtain ⟨k, hk1, hk2⟩ := i7
        refine ⟨k + 1, ?_, ?_⟩
        · rw [hk1, Finset.card_insert_of_not_mem hr]
          omega
        · rw [hk2]
          simp
          omega

lemma find?_id_eq (a : Automaton) (i : Nat) (st : State)
    (h : a.getState i = some st) : st.id = i := by
  have := List.find?_some h
  simpa using this

/-- Correctness of the closure worklist, given the loop invariants and
enough fuel: the result contains the seed closure, stays inside the state
ids, is ε-closed, and sits inside every ε-closed superset of the seed. -/
lemma epsilonClosureGo_spec (a : Automaton) : ∀ (fuel : Nat) (closure : Finset Nat)
    (stack : List Nat),
    closure ⊆ idSet a →
    (∀ i ∈ stack, (a.getState i).isSome = true → i ∈ closure) →
    (∀ q ∈ closure, q ∉ stack → ∀ r ∈ epsSuccIds a q, r ∈ closure) →
    (idSet a).card - closure.card + stack.length + 1 ≤ fuel →
    closure ⊆ epsilonClosureGo a fuel closure stack ∧
    epsilonClosureGo a fuel closure stack ⊆ idSet a ∧
    epsClosed a (epsilonClosureGo a fuel closure stack) ∧
    (∀ C, closure ⊆ C → epsClosed a C → epsilonClosureGo a fuel closure stack ⊆ C) := by
  intro fuel
  induction fuel with
  | zero =>
    intro closure stack _ _ _ hfuel
    omega
  | succ n ih =>
    intro closure stack hclo hstack hinv hfuel
    cases stack with
    | nil =>
      refine ⟨subset_rfl, hclo, ?_, fun C hC _ => hC⟩
      intro q hq r hr
      exact hinv q hq (by simp) r hr
    | cons current rest =>
      show _ ⊆ epsilonClosureGo a (n + 1) closure (current :: rest) ∧ _
      cases hg : a.getState current with
      | none =>
        have hgo : epsilonClosureGo a (n + 1) closure (current :: rest) =
            epsilonClosureGo a n closure rest := by
          show (match a.getState current with
                | none => epsilonClosureGo a n closure rest
                | some st =>
                    match processEps closure rest (epsSuccIds a st.id) with
                    | (closure', stack') => epsilonClosureGo a n closure' stack') = _
          rw [hg]
        rw [hgo]
        apply ih closure rest hclo
        · intro i hi hires
          exact hstack i (by simp [hi]) hires
        · intro q hq hqr r hr
          have hqc : q ≠ current := by
            intro heq
            subst heq
            have := (getState_isSome_iff a q).mpr (hclo hq)
            rw [hg] at this
            simp at this
          exact hinv q hq (by simp [hqc, hqr]) r hr
        · simp only [List.length_cons] at hfuel
          omega
      | some st =>
        have hstid : st.id = current := find?_id_eq a current st hg
        have hcur : current ∈ closure :=
          hstack current (by simp) (by rw [hg]; rfl)
        rcases hPE : processEps closure rest (epsSuccIds a st.id) with ⟨c', s'⟩
        have hgo : epsilonClosureGo a (n + 1) closure (current :: rest) =
            epsilonClosureGo a n c' s' := by
          show (match a.getState current with
                | none => epsilonClosureGo a n closure rest
                | some st =>
                    match processEps closure rest (epsSuccIds a st.id) with
                    | (closure', stack') => epsilonClosureGo a n closure' stack') = _
          rw [hg]
          dsimp only
          rw [hPE]
        rw [hgo]
        obtain ⟨i1, i2, i3, i4, i5, i6, i7⟩ := processEps_spec (epsSuccIds a st.id) closure rest
        rw [hPE] at i1 i2 i3 i4 i5 i6 i7
        dsimp only at i1 i2 i3 i4 i5 i6 i7
        have hsucc_id : ∀ r ∈ epsSuccIds a st.id, r ∈ idSet a := epsSuccIds_subset_idSet a st.id
        have hclo' : c' ⊆ idSet a := by
          intro x hx
          rcases Finset.mem_union.mp (i3 hx) with h | h
          · exact hclo h
          · exact hsucc_id x (List.mem_toFinset.mp h)
        have hstack' : ∀ i ∈ s', (a.getState i).isSome = true → i ∈ c' := by
          intro i hi hires
          rcases i4 i hi with h | h
          · exact i1 (hstack i (by simp [h]) hires)
          · exact h
        have hinv' : ∀ q ∈ c', q ∉ s' → ∀ r ∈ epsSuccIds a q, r ∈ c' := by
          intro q hq hqs r hr
          by_cases hqold : q ∈ closure
          · by_cases hqcur : q = current
            · subst hqcur
              exact i2 r (by rw [hstid]; exact hr)
            · have hqrest : q ∉ rest := fun h => hqs (i5 q h)
              exact i1 (hinv q hqold (by simp [hqcur, hqrest]) r hr)
          · exact absurd (i6 q hq hqold) hqs
        have hfuel' : (idSet a).card - c'.card + s'.length + 1 ≤ n := by
          obtain ⟨k, hk1, hk2⟩ := i7
          have hcard1 : closure.card ≤ (idSet a).card := Finset.card_le_card hclo
          have hcard2 : c'.card ≤ (idSet a).card := Finset.card_le_card hclo'
          simp only [List.length_cons] at hfuel
          omega
        obtain ⟨j1, j2, j3, j4⟩ := ih c' s' hclo' hstack' hinv' hfuel'
        refine ⟨fun x hx => j1 (i1 hx), j2, j3, ?_⟩
        intro C hC hCc
        apply j4
        · intro x hx
          rcases Finset.mem_union.mp (i3 hx) with h | h
          · exact hC h
          · exact hCc current (hC hcur) x (by rw [← hstid]; exact List.mem_toFinset.mp h)
        · exact hCc

/-- Correctness of `NFA.epsilonClosure` on a seed list of ids. -/
lemma epsilonClosure_spec (a : Automaton) (inp : List Nat) :
    (∀ i ∈ inp, (a.getState i).isSome = true → i ∈ epsilonClosure a inp) ∧
    epsilonClosure a inp ⊆ idSet a ∧
    epsClosed a (epsilonClosure a inp) ∧
    (∀ C, (∀ i ∈ inp, (a.getState i).isSome = true → i ∈ C) → epsClosed a C →
        epsilonClosure a inp ⊆ C) := by
  have hseed : ∀ i, i ∈
      (inp.filterMap (fun i => if (a.getState i).isSome then some i else none)).toFinset ↔
      (i ∈ inp ∧ (a.getState i).isSome = true) := by
    intro i
    rw [List.mem_toFinset, List.mem_filterMap]
    constructor
    · rintro ⟨j, hj, hres⟩
      by_cases h : (a.getState j).isSome = true
      · rw [if_pos h] at hres
        obtain rfl : j = i := by simpa using hres
        exact ⟨hj, h⟩
      · rw [if_neg h] at hres
        simp at hres
    · rintro ⟨hi, hres⟩
      exact ⟨i, hi, by rw [if_pos hres]⟩
  have hid : (idSet a).card ≤ a.states.length := by
    unfold idSet
    calc (a.states.map State.id).toFinset.card
        ≤ (a.states.map State.id).length := List.toFinset_card_le _
      _ = a.states.length := List.length_map _ _
  obtain ⟨g1, g2, g3, g4⟩ := epsilonClosureGo_spec a (a.states.length + inp.length + 1)
    ((inp.filterMap (fun i => if (a.getState i).isSome then some i else none)).toFinset)
    inp.reverse
    (by
      intro x hx
      rw [hseed x] at hx
      exact (getState_isSome_iff a x).mp hx.2)
    (by
      intro i hi hires
      rw [hseed i]
      exact ⟨List.mem_reverse.mp hi, hires⟩)
    (by
      intro q hq hqs
      exfalso
      rw [hseed q] at hq
      exact hqs (List.mem_reverse.mpr hq.1))
    (by
      rw [List.length_reverse]
      omega)
  exact ⟨fun i hi hires => g1 ((hseed i).mpr ⟨hi, hires⟩), g2, g3,
    fun C hC hCc => g4 C (fun x hx => hC x ((hseed x).mp hx).1 ((hseed x).mp hx).2) hCc⟩

/-- C5: for S a subset of the automaton's states, the ε-closure is extensive
(`S ⊆ εClosure(S)`), idempotent (`εClosure(εClosure(S)) = εClosure(S)`),
ε-closed, and least among ε-closed supersets of S. -/
theorem C5_epsilon_closure (a : Automaton) (S : Finset Nat) (hS : S ⊆ idSet a) :
    (∀ i ∈ S, i ∈ epsilonClosureF a S) ∧
    epsilonClosureF a (epsilonClosureF a S) = epsilonClosureF a S ∧
    epsClosed a (epsilonClosureF a S) ∧
    (∀ C, S ⊆ C → epsClosed a C → epsilonClosureF a S ⊆ C) := by
  have hres : ∀ i ∈ S, (a.getState i).isSome = true := by
    intro i hi
    exact (getState_isSome_iff a i).mpr (hS hi)
  obtain ⟨e1, e2, e3, e4⟩ := epsilonClosure_spec a (S.sort (· ≤ ·))
  have hmemS : ∀ i, i ∈ S.sort (· ≤ ·) ↔ i ∈ S := fun i => Finset.mem_sort _
  have hext : ∀ i ∈ S, i ∈ epsilonClosureF a S := by
    intro i hi
    exact e1 i ((hmemS i).mpr hi) (hres i hi)
  refine ⟨hext, ?_, e3, ?_⟩
  · obtain ⟨f1, f2, f3, f4⟩ := epsilonClosure_spec a ((epsilonClosureF a S).sort (· ≤ ·))
    apply Finset.Subset.antisymm
    · apply f4
      · intro i hi _
        exact (Finset.mem_sort _).mp hi
      · exact e3
    · intro x hx
      apply f1
      · exact (Finset.mem_sort _).mpr hx
      · exact (getState_isSome_iff a x).mpr (e2 hx)
  · intro C hC hCc
    apply e4
    · intro i hi _
      exact hC ((hmemS i).mp hi)
    · exact hCc

/-- The two-state ε-NFA of spec scenario S2 (q0 −ε→ q1, q1 −a→ q1,
q1 −b→ q2 with q2 final), used as a concrete witness input. -/
def nfaS2 : Automaton :=
  { type := "nfa",
    states := [{ id := 0, name := "q0", x := 100, y := 100,
                 isInitial := true, isFinal := false, isHalt := false },
               { id := 1, name := "q1", x := 200, y := 100,
                 isInitial := false, isFinal := false, isHalt := false },
               { id := 2, name := "q2", x := 300, y := 100,
                 isInitial := false, isFinal := true, isHalt := false }],
    transitions := [{ id := 0, fromState := some 0, toState := some 1,
                      symbols := ["ε"] },
                    { id := 1, fromState := some 1, toState := some 1,
                      symbols := ["a"] },
                    { id := 2, fromState := some 1, toState := some 2,
                      symbols := ["b"] }],
    alphabet := ["a", "b"], initialState := some 0 }

/-- Witness for C5 at the concrete NFA `nfaS2` and the seed set containing
the initial state. -/
theorem C5_epsilon_closure_witness :
    ({0} : Finset Nat) ⊆ idSet nfaS2 ∧
    epsilonClosureF nfaS2 (epsilonClosureF nfaS2 {0}) = epsilonClosureF nfaS2 {0} := by
  refine ⟨by decide, ?_⟩
  exact (C5_epsilon_closure nfaS2 {0} (by decide)).2.1

/-! ### NFA and DFA simulation (claims C10, C3, C1)

The active set of an NFA is a JavaScript `Set` of state objects; with
duplicate-free state ids it is a set of ids, modelled as a `Finset Nat`.  The
DFA's active set is always empty or a singleton (the base `initSimulation`
puts in one state, `DFA.step` replaces or clears it), modelled as
`Option Nat`. -/

/-- The simulation state of an NFA run. -/
structure NFASt where
  currentStates : Finset Nat
  inputIndex : Nat
  isAccepted : Option Bool
deriving DecidableEq

/-- The simulation state of a DFA run. -/
structure DFASt where
  currentState : Option Nat
  inputIndex : Nat
  isAccepted : Option Bool
deriving DecidableEq

/-- The move of one `NFA.step` (and of the subset construction) on one
symbol string: the resolvable targets of transitions out of the active set
that accept the symbol. -/
def nfaMove (a : Automaton) (S : Finset Nat) (symbol : String) : Finset Nat :=
  (a.transitions.filterMap (fun t =>
    match t.fromState, t.toState with
    | some q, some r =>
        if q ∈ S ∧ t.accepts (some symbol) = true ∧ (a.getState r).isSome = true
        then some r else none
    | _, _ => none)).toFinset

/-- The per-element ε-closure union both `NFA.step` and `NFA.toDFA` apply to
a move result (`nextStates.forEach(state => closure of [state])`). -/
def unionClosure (a : Automaton) (M : Finset Nat) : Finset Nat :=
  M.biUnion (fun q => epsilonClosure a [q])

/-- One NFA macro-step on a character: move on the one-character string the
indexing `input[i]` yields, then close. -/
def nfaStepSet (a : Automaton) (S : Finset Nat) (c : Char) : Finset Nat :=
  unionClosure a (nfaMove a S (String.mk [c]))

/-- `NFA.checkAcceptance()`: accepted iff the cursor reached the end of the
input and some active state is final (by id). -/
def nfaCheckAcceptance (a : Automaton) (input : List Char) (st : NFASt) : NFASt :=
  if st.inputIndex < input.length then { st with isAccepted := some false }
  else
    { st with
        isAccepted := some (decide (∃ q ∈ st.currentStates, ∃ f ∈ a.getFinalStates, f.id = q)) }

/-- One `NFA.step()` (trace omitted).  The inner `none` branch of the input
lookup is unreachable: the guard has just established that the cursor is in
range. -/
def nfaStep (a : Automaton) (input : List Char) (st : NFASt) : Bool × NFASt :=
  if st.inputIndex ≥ input.length ∨ st.currentStates = ∅ then
    (false, nfaCheckAcceptance a input st)
  else
    match input[st.inputIndex]? with
    | none => (false, st)
    | some c =>
        if nfaStepSet a st.currentStates c = ∅ then
          (false, { st with currentStates := ∅, inputIndex := st.inputIndex + 1,
                            isAccepted := some false })
        else
          (true, { st with currentStates := nfaStepSet a st.currentStates c,
                           inputIndex := st.inputIndex + 1 })

/-- The loop of the base `Automaton.run(maxSteps)` driving `NFA.step`:
`while (inputIndex < input.length && steps < maxSteps && currentStates.size > 0)`. -/
def nfaRunGo (a : Automaton) (input : List Char) : Nat → NFASt → Nat → NFASt × Nat
  | 0, st, steps => (st, steps)
  | fuel + 1, st, steps =>
      if st.inputIndex < input.length ∧ st.currentStates ≠ ∅ then
        nfaRunGo a input fuel (nfaStep a input st).2 (steps + 1)
      else (st, steps)

/-- `Automaton.run(maxSteps)` on an NFA: the loop, then `checkAcceptance`. -/
def nfaRun (a : Automaton) (input : List Char) (maxSteps : Nat) (st : NFASt) :
    NFASt × Nat :=
  match nfaRunGo a input maxSteps st 0 with
  | (st', steps) => (nfaCheckAcceptance a input st', steps)

/-- `NFA.initSimulation(input)`: the ε-closure of the initial state. -/
def nfaInitSimulation (a : Automaton) : NFASt :=
  match a.initialState with
  | some i => { currentStates := epsilonClosure a [i], inputIndex := 0, isAccepted := none }
  | none => { currentStates := ∅, inputIndex := 0, isAccepted := none }

/-- `Automaton.accepts(input)` on an NFA: init, run with the default budget
of 1000 steps, read the verdict. -/
def nfaAccepts (a : Automaton) (input : List Char) : Bool :=
  (((nfaRun a input 1000 (nfaInitSimulation a)).1).isAccepted).getD false

/-- The base `Automaton.checkAcceptance()` used by the DFA: some active
state is final — the cursor is not consulted. -/
def dfaCheckAcceptance (a : Automaton) (st : DFASt) : DFASt :=
  { st with
      isAccepted := some (decide (∃ q, st.currentState = some q ∧ ∃ f ∈ a.getFinalStates, f.id = q)) }

/-- One `DFA.step()` (trace omitted).  The `none` branch of the input lookup
is unreachable behind the guard.  When the first accepting transition's
target does not resolve the source would throw (`nextState.active` on
`undefined`); the model clears the active state and rejects — unreachable for
any DFA whose transition endpoints resolve, in particular for every DFA the
subset construction builds. -/
def dfaStep (a : Automaton) (input : List Char) (st : DFASt) : Bool × DFASt :=
  if st.inputIndex ≥ input.length ∨ st.currentState = none then
    (false, dfaCheckAcceptance a st)
  else
    match input[st.inputIndex]?, st.currentState with
    | some c, some q =>
        match (a.getTransitionsFrom q).find?
            (fun t => t.accepts (some (String.mk [c]))) with
        | some vt =>
            match resolveTo a vt with
            | some nq =>
                (true, { st with currentState := some nq,
                                 inputIndex := st.inputIndex + 1 })
            | none => (false, { st with currentState := none, isAccepted := some false })
        | none => (false, { st with currentState := none, isAccepted := some false })
    | _, _ => (false, st)

/-- The loop of the base `Automaton.run(maxSteps)` driving `DFA.step`. -/
def dfaRunGo (a : Automaton) (input : List Char) : Nat → DFASt → Nat → DFASt × Nat
  | 0, st, steps => (st, steps)
  | fuel + 1, st, steps =>
      if st.inputIndex < input.length ∧ st.currentState ≠ none then
        dfaRunGo a input fuel (dfaStep a input st).2 (steps + 1)
      else (st, steps)

/-- `Automaton.run(maxSteps)` on a DFA. -/
def dfaRun (a : Automaton) (input : List Char) (maxSteps : Nat) (st : DFASt) :
    DFASt × Nat :=
  match dfaRunGo a input maxSteps st 0 with
  | (st', steps) => (dfaCheckAcceptance a st', steps)

/-- The base `Automaton.initSimulation(input)` as the DFA uses it: the
active set is the initial state. -/
def dfaInitSimulation (a : Automaton) : DFASt :=
  { currentState := a.initialState, inputIndex := 0, isAccepted := none }

/-- `Automaton.accepts(input)` on a DFA. -/
def dfaAccepts (a : Automaton) (input : List Char) : Bool :=
  (((dfaRun a input 1000 (dfaInitSimulation a)).1).isAccepted).getD false

/-! ### C10: ε-like transitions reject every ordinary symbol -/

/-- A transition listing `'ε'` or `''` takes the epsilon branch of
`accepts`, which rejects every symbol outside `{'', 'ε', null}`. -/
lemma accepts_false_of_epsLike {t : Transition} {s : String}
    (hε : "ε" ∈ t.symbols ∨ "" ∈ t.symbols) (h1 : s ≠ "") (h2 : s ≠ "ε") :
    t.accepts (some s) = false := by
  unfold Transition.accepts
  have hb : (t.symbols.contains "ε" || t.symbols.contains "") = true := by
    rw [Bool.or_eq_true]
    rcases hε with h | h
    · exact Or.inl (List.elem_eq_true_of_mem h)
    · exact Or.inr (List.elem_eq_true_of_mem h)
  rw [if_pos hb]
  simp [h1, h2]

/-- The states of an automaton, hence `getState`, are untouched by replacing
the transition list. -/
lemma getState_transitions (a : Automaton) (l : List Transition) (r : Nat) :
    ({ a with transitions := l } : Automaton).getState r = a.getState r := rfl

/-- Membership in the one-symbol move of an NFA step. -/
lemma mem_nfaMove {a : Automaton} {S : Finset Nat} {symbol : String} {r : Nat} :
    r ∈ nfaMove a S symbol ↔
      ∃ t ∈ a.transitions, ∃ q, t.fromState = some q ∧ q ∈ S ∧
        t.toState = some r ∧ t.accepts (some symbol) = true ∧
        (a.getState r).isSome = true := by
  unfold nfaMove
  rw [List.mem_toFinset, List.mem_filterMap]
  constructor
  · rintro ⟨t, ht, hf⟩
    refine ⟨t, ht, ?_⟩
    rcases h1 : t.fromState with _ | q <;> rcases h2 : t.toState with _ | r' <;>
      rw [h1, h2] at hf <;> dsimp only at hf
    · exact absurd hf (by simp)
    · exact absurd hf (by simp)
    · exact absurd hf (by simp)
    · by_cases hc : q ∈ S ∧ t.accepts (some symbol) = true ∧ (a.getState r').isSome = true
      · rw [if_pos hc] at hf
        obtain rfl : r' = r := Option.some.inj hf
        exact ⟨q, rfl, hc.1, rfl, hc.2.1, hc.2.2⟩
      · rw [if_neg hc] at hf
        exact absurd hf (by simp)
  · rintro ⟨t, ht, q, h1, h2, h3, h4, h5⟩
    refine ⟨t, ht, ?_⟩
    rw [h1, h3]
    dsimp only
    rw [if_pos ⟨h2, h4, h5⟩]

/-- The one-character string of a character other than `'ε'` is neither empty
nor `"ε"`. -/
lemma charString_ne {c : Char} (hc : c ≠ 'ε') :
    String.mk [c] ≠ "" ∧ String.mk [c] ≠ "ε" := by
  constructor
  · intro h
    have := congrArg String.data h
    simp at this
  · intro h
    have := congrArg String.data h
    simp at this
    exact hc this

/-- C10: a transition whose symbols contain `'ε'` or the empty string rejects
every ordinary symbol `s` outside `{"", "ε"}` — even when `s` itself is
listed — and deleting such a transition leaves the symbol move of an NFA step
on any character other than `'ε'` unchanged: it never consumes an input
symbol. -/
theorem C10_epsilon_like_transition (t : Transition)
    (hε : "ε" ∈ t.symbols ∨ "" ∈ t.symbols) :
    (∀ s : String, s ≠ "" → s ≠ "ε" → t.accepts (some s) = false) ∧
    (∀ (a : Automaton) (S : Finset Nat) (c : Char), c ≠ 'ε' →
      nfaMove { a with transitions := a.transitions.erase t } S (String.mk [c]) =
        nfaMove a S (String.mk [c])) := by
  refine ⟨fun s h1 h2 => accepts_false_of_epsLike hε h1 h2, ?_⟩
  intro a S c hc
  apply Finset.ext
  intro r
  rw [mem_nfaMove, mem_nfaMove]
  constructor
  · rintro ⟨t', ht', q, h1, h2, h3, h4, h5⟩
    rw [getState_transitions] at h5
    exact ⟨t', List.mem_of_mem_erase ht', q, h1, h2, h3, h4, h5⟩
  · rintro ⟨t', ht', q, h1, h2, h3, h4, h5⟩
    have hne : t' ≠ t := by
      rintro rfl
      rw [accepts_false_of_epsLike hε (charString_ne hc).1 (charString_ne hc).2] at h4
      exact Bool.false_ne_true h4
    refine ⟨t', (List.mem_erase_of_ne hne).2 ht', q, h1, h2, h3, h4, ?_⟩
    rw [getState_transitions]
    exact h5

/-- A concrete ε-like transition that also lists the ordinary symbol `a`. -/
def tEps : Transition :=
  { id := 0, fromState := some 0, toState := some 1, symbols := ["ε", "a"] }

theorem C10_epsilon_like_transition_witness :
    ("ε" ∈ tEps.symbols ∨ "" ∈ tEps.symbols) ∧ tEps.accepts (some "a") = false := by
  refine ⟨Or.inl (by decide), ?_⟩
  exact (C10_epsilon_like_transition tEps (Or.inl (by decide))).1 "a" (by decide) (by decide)

/-! ### C3: the run loops and budget exhaustion -/

lemma dfaRunGo_steps_le (a : Automaton) (input : List Char) :
    ∀ (fuel : Nat) (st : DFASt) (steps : Nat),
    (dfaRunGo a input fuel st steps).2 ≤ steps + fuel := by
  intro fuel
  induction fuel with
  | zero =>
    intro st steps
    simp [dfaRunGo]
  | succ n ih =>
    intro st steps
    unfold dfaRunGo
    split
    · have := ih (dfaStep a input st).2 (steps + 1)
      omega
    · show steps ≤ steps + (n + 1)
      omega

lemma nfaRunGo_steps_le (a : Automaton) (input : List Char) :
    ∀ (fuel : Nat) (st : NFASt) (steps : Nat),
    (nfaRunGo a input fuel st steps).2 ≤ steps + fuel := by
  intro fuel
  induction fuel with
  | zero =>
    intro st steps
    simp [nfaRunGo]
  | succ n ih =>
    intro st steps
    unfold nfaRunGo
    split
    · have := ih (nfaStep a input st).2 (steps + 1)
      omega
    · show steps ≤ steps + (n + 1)
      omega

lemma pdaRunGo_steps_le (p : PDA) (input : List Char) :
    ∀ (fuel : Nat) (st : PDASt) (steps : Nat),
    (pdaRunGo p input fuel st steps).2.1 ≤ steps + fuel := by
  intro fuel
  induction fuel with
  | zero =>
    intro st steps
    simp [pdaRunGo]
  | succ n ih =>
    intro st steps
    unfold pdaRunGo
    split
    · show steps ≤ steps + (n + 1)
      omega
    · rcases hstep : pdaStep p input st with ⟨had, st'⟩
      dsimp only
      split
      · show steps + 1 ≤ steps + (n + 1)
        omega
      · split
        · show steps + 1 ≤ steps + (n + 1)
          omega
        · have := ih st' (steps + 1)
          omega

/-- A progressing `PDA.step()` leaves the verdict untouched. -/
lemma pdaStep_true_isAccepted (p : PDA) (input : List Char) (st st' : PDASt)
    (hstep : pdaStep p input st = (true, st')) : st'.isAccepted = st.isAccepted := by
  unfold pdaStep at hstep
  split at hstep
  · simp at hstep
  · split at hstep
    · simp at hstep
    · split at hstep
      · simp at hstep
      · injection hstep with h1 h2
        subst h2
        rfl

/-- A PDA loop that exits on budget never decided acceptance. -/
lemma pdaRunGo_budget_none (p : PDA) (input : List Char) :
    ∀ (fuel : Nat) (st : PDASt) (steps : Nat), st.isAccepted = none →
    (pdaRunGo p input fuel st steps).2.2 = RunExit.budget →
    (pdaRunGo p input fuel st steps).1.isAccepted = none := by
  intro fuel
  induction fuel with
  | zero =>
    intro st steps hna _
    exact hna
  | succ n ih =>
    intro st steps hna hex
    unfold pdaRunGo at hex ⊢
    split at hex
    · rename_i hemp
      rw [if_pos hemp]
      exact hna
    · rename_i hemp
      rw [if_neg hemp]
      rcases hstep : pdaStep p input st with ⟨had, st'⟩
      dsimp only at hex ⊢
      split at hex
      · exact absurd hex (by simp)
      · split at hex
        · exact absurd hex (by simp)
        · rename_i hacc hh
          rw [hstep] at hacc hh hex
          dsimp only at hacc hh hex
          rw [if_neg hacc, if_neg hh]
          have hhad : had = true := by
            rcases had with _ | _
            · exact absurd rfl hh
            · rfl
          subst hhad
          exact ih st' (steps + 1) ((pdaStep_true_isAccepted p input st st' hstep).trans hna) hex

/-- When no configuration has consumed the input, the PDA verdict is
rejection. -/
lemma pdaAcceptVerdict_unfinished (p : PDA) (input : List Char)
    (configs : List PDAConfig) (h : ∀ c ∈ configs, c.inputIndex < input.length) :
    pdaAcceptVerdict p input configs = false := by
  unfold pdaAcceptVerdict
  have hfil : configs.filter (fun c => c.inputIndex ≥ input.length) = [] := by
    rw [List.filter_eq_nil_iff]
    intro c hc
    simp only [decide_eq_true_eq]
    exact Nat.not_le.mpr (h c hc)
  rw [hfil]
  rfl

/-- A TM loop that exits on budget never decided acceptance and leaves a
non-final, non-halting active state. -/
lemma tmRunGo_budget_none (m : TM) :
    ∀ (fuel : Nat) (st : TMSt) (steps : Nat), st.isAccepted = none → 1 ≤ fuel →
    (tmRunGo m fuel st steps).2.2 = TMExit.budget →
    (tmRunGo m fuel st steps).1.isAccepted = none ∧
    ∃ q, (tmRunGo m fuel st steps).1.currentStates = some q ∧
      q.isFinal = false ∧ q.isHalt = false := by
  intro fuel
  induction fuel with
  | zero =>
    intro st steps _ hf
    omega
  | succ n ih =>
    intro st steps hacc _ hex
    unfold tmRunGo at hex ⊢
    rcases hstep : tmStep m st with ⟨c, st'⟩
    rw [hstep] at hex
    dsimp only at hex ⊢
    by_cases hc : c = true
    · rw [if_neg (by simp [hc])] at hex ⊢
      obtain ⟨hacc', q, hq, hf, hh⟩ := tmStep_true m st c st' hstep hc
      by_cases hd : tmLoopDetect st'.trace = true
      · rw [if_pos hd] at hex
        simp at hex
      · rw [if_neg hd] at hex ⊢
        rcases Nat.eq_zero_or_pos n with hn | hn
        · subst hn
          exact ⟨hacc'.trans hacc, q, hq, hf, hh⟩
        · exact ih st' (steps + 1) (hacc'.trans hacc) hn hex
    · rw [if_pos (by simp [Bool.of_not_eq_true hc])] at hex
      simp at hex

/-- The one-state DFA accepting `a*`: its single state is initial and final
with an `a`-labelled self-loop. -/
def dfaLoop : Automaton :=
  { type := "dfa",
    states := [{ id := 0, name := "q0", x := 100, y := 100,
                 isInitial := true, isFinal := true, isHalt := false }],
    transitions := [{ id := 0, fromState := some 0, toState := some 0, symbols := ["a"] }],
    alphabet := ["a"],
    initialState := some 0 }

/-- C3 counterexample: running `dfaLoop` on `"aa"` with `maxSteps = 1`
exhausts the budget (1 step taken, cursor at 1 of 2, the active state still
set, acceptance undecided at loop exit), yet `run` reports
`isAccepted = true` — the base `checkAcceptance` never consults the cursor,
so budget exhaustion does not set `isAccepted` to `false` on a DFA. -/
theorem C3_counterexample :
    (dfaRunGo dfaLoop ['a', 'a'] 1 (dfaInitSimulation dfaLoop) 0).2 = 1 ∧
    (dfaRunGo dfaLoop ['a', 'a'] 1 (dfaInitSimulation dfaLoop) 0).1.inputIndex = 1 ∧
    (dfaRunGo dfaLoop ['a', 'a'] 1 (dfaInitSimulation dfaLoop) 0).1.currentState = some 0 ∧
    (dfaRunGo dfaLoop ['a', 'a'] 1 (dfaInitSimulation dfaLoop) 0).1.isAccepted = none ∧
    (dfaRun dfaLoop ['a', 'a'] 1 (dfaInitSimulation dfaLoop)).1.isAccepted = some true := by
  decide

/-- C3 (amended): every variant's `run(maxSteps)` performs at most `maxSteps`
steps.  On budget exhaustion the NFA (input remaining at loop exit), the PDA
(budget exit with no configuration through the input) and the TM (budget
exit) all end with `isAccepted = false`; the DFA instead ends with
`isAccepted` exactly equal to the finality of its still-active state —
`true` when that state is final (see `C3_counterexample`), `false` when it
is not — because the base `checkAcceptance` never consults the cursor. -/
theorem C3_run_budget :
    (∀ (a : Automaton) (input : List Char) (maxSteps : Nat) (st : DFASt) (steps0 : Nat),
        (dfaRunGo a input maxSteps st steps0).2 ≤ steps0 + maxSteps) ∧
    (∀ (a : Automaton) (input : List Char) (maxSteps : Nat) (st : NFASt) (steps0 : Nat),
        (nfaRunGo a input maxSteps st steps0).2 ≤ steps0 + maxSteps) ∧
    (∀ (p : PDA) (input : List Char) (maxSteps : Nat) (st : PDASt) (steps0 : Nat),
        (pdaRunGo p input maxSteps st steps0).2.1 ≤ steps0 + maxSteps) ∧
    (∀ (m : TM) (maxSteps : Nat) (st : TMSt) (steps0 : Nat),
        (tmRunGo m maxSteps st steps0).2.1 ≤ steps0 + maxSteps) ∧
    (∀ (a : Automaton) (input : List Char) (maxSteps : Nat) (st : NFASt),
        (nfaRunGo a input maxSteps st 0).1.inputIndex < input.length →
        (nfaRun a input maxSteps st).1.isAccepted = some false) ∧
    (∀ (p : PDA) (input : List Char) (maxSteps : Nat) (st : PDASt),
        st.isAccepted = none →
        (pdaRunGo p input maxSteps st 0).2.2 = RunExit.budget →
        (∀ c ∈ (pdaRunGo p input maxSteps st 0).1.configurations,
          c.inputIndex < input.length) →
        (pdaRun p input maxSteps st).1.isAccepted = some false) ∧
    (∀ (m : TM) (maxSteps : Nat) (st : TMSt),
        st.isAccepted = none → 1 ≤ maxSteps →
        (tmRunGo m maxSteps st 0).2.2 = TMExit.budget →
        (tmRun m maxSteps st).1.isAccepted = some false) ∧
    (∀ (a : Automaton) (input : List Char) (maxSteps : Nat) (st : DFASt) (q : Nat),
        (dfaRunGo a input maxSteps st 0).1.currentState = some q →
        (dfaRun a input maxSteps st).1.isAccepted =
          some (decide (∃ f ∈ a.getFinalStates, f.id = q))) := by
  refine ⟨dfaRunGo_steps_le, nfaRunGo_steps_le, pdaRunGo_steps_le,
    fun m => tmRunGo_steps_le m, ?_, ?_, ?_, ?_⟩
  · intro a input maxSteps st hidx
    unfold nfaRun
    rcases hgo : nfaRunGo a input maxSteps st 0 with ⟨st', steps⟩
    rw [hgo] at hidx
    dsimp only at hidx ⊢
    unfold nfaCheckAcceptance
    rw [if_pos hidx]
  · intro p input maxSteps st hna hex hcfg
    unfold pdaRun
    rcases hgo : pdaRunGo p input maxSteps st 0 with ⟨st', steps, ex⟩
    have hnone : st'.isAccepted = none := by
      have := pdaRunGo_budget_none p input maxSteps st 0 hna
      rw [hgo] at this
      rw [hgo] at hex
      exact this hex
    rw [hgo] at hcfg
    dsimp only at hcfg ⊢
    rw [hnone]
    rw [if_pos (beq_self_eq_true (none : Option Bool))]
    unfold pdaCheckAcceptance
    rw [pdaAcceptVerdict_unfinished p input st'.configurations hcfg]
  · intro m maxSteps st hna hms hex
    unfold tmRun
    rcases hgo : tmRunGo m maxSteps st 0 with ⟨st', steps, ex⟩
    have hprops := tmRunGo_budget_none m maxSteps st 0 hna hms
    rw [hgo] at hprops hex
    obtain ⟨hnone, q, hq, hf, hh⟩ := hprops hex
    dsimp only at hnone hq ⊢
    rw [hnone]
    rw [if_pos (beq_self_eq_true (none : Option Bool))]
    unfold tmCheckAcceptance
    rw [hq]
    dsimp only
    rw [if_neg (by simp [hf, hh])]
  · intro a input maxSteps st q hq
    unfold dfaRun
    rcases hgo : dfaRunGo a input maxSteps st 0 with ⟨st', steps⟩
    rw [hgo] at hq
    dsimp only at hq ⊢
    unfold dfaCheckAcceptance
    dsimp only
    refine congrArg some (decide_eq_decide.mpr ?_)
    rw [hq]
    constructor
    · rintro ⟨q', hqq, hf⟩
      obtain rfl : q = q' := Option.some.inj hqq
      exact hf
    · intro hf
      exact ⟨q, rfl, hf⟩

theorem C3_run_budget_witness :
    (nfaRunGo nfaS2 ['a'] 0 (nfaInitSimulation nfaS2) 0).1.inputIndex <
      (['a'] : List Char).length ∧
    (nfaRun nfaS2 ['a'] 0 (nfaInitSimulation nfaS2)).1.isAccepted = some false := by
  refine ⟨by decide, ?_⟩
  exact C3_run_budget.2.2.2.2.1 nfaS2 ['a'] 0 (nfaInitSimulation nfaS2) (by decide)

/-! ### C1: the subset construction `NFA.toDFA()`

The DFA states the construction creates get session-global fresh ids in the
source (`State.nextId++`, `Transition.nextId++`); the model hands out
consecutive ids from a local counter — nothing in the simulation engine reads
these ids other than for identity.  Display name and coordinates of the
created states are visual metadata never consulted by `run`; the model uses
canonical placeholders for them.  The `stateMap`, keyed in the source by the
comma-join of the decimally sorted id list of a subset (an injective
canonical form of the id set), is modelled as an association list keyed by
the id set itself. -/

/-- The subset-transition of the construction on one alphabet symbol:
the move closed elementwise (`closedNext`). -/
def deltaD (a : Automaton) (S : Finset Nat) (symbol : String) : Finset Nat :=
  unionClosure a (nfaMove a S symbol)

/-- `Array.from(subset).some(s => s.isFinal)`: the subset's members are the
`getState` images of its ids. -/
def subsetFinal (a : Automaton) (K : Finset Nat) : Bool :=
  decide (∃ q ∈ K, (a.getState q).any (fun s => s.isFinal) = true)

/-- The ε-closure of the initial state seeding the construction (an absent
initial state seeds `[null]`, which closes to the empty set). -/
def initialSubset (a : Automaton) : Finset Nat :=
  match a.initialState with
  | some i => epsilonClosure a [i]
  | none => ∅

/-- The working state of `NFA.toDFA()`: the DFA under construction, the
subset-to-state map (insertion order), the pending queue, and the fresh-id
counter. -/
structure BuildSt where
  dfa : Automaton
  stateMap : List (Finset Nat × Nat)
  queue : List (Finset Nat × Nat)
  nextId : Nat

/-- The body of the `alphabet.forEach` in `NFA.toDFA()`: skip `'ε'`, skip an
empty move, otherwise close the move, look the subset up, create a DFA state
for a fresh subset (enqueueing it), and add the DFA transition. -/
def toDFAProcessSymbol (a : Automaton) (S : Finset Nat) (dId : Nat)
    (b : BuildSt) (symbol : String) : BuildSt :=
  if symbol = "ε" then b
  else if nfaMove a S symbol = ∅ then b
  else
    match b.stateMap.find? (fun kv => kv.1 == deltaD a S symbol) with
    | some kv =>
        { b with
            dfa := b.dfa.addTransition
              { id := b.dfa.transitions.length, fromState := some dId,
                toState := some kv.2, symbols := [symbol] } }
    | none =>
        { dfa := (b.dfa.addState
              { id := b.nextId, name := "S" ++ toString b.nextId, x := 100, y := 200,
                isInitial := false, isFinal := subsetFinal a (deltaD a S symbol),
                isHalt := false }).addTransition
            { id := b.dfa.transitions.length, fromState := some dId,
              toState := some b.nextId, symbols := [symbol] },
          stateMap := b.stateMap ++ [(deltaD a S symbol, b.nextId)],
          queue := b.queue ++ [(deltaD a S symbol, b.nextId)],
          nextId := b.nextId + 1 }

/-- The `while (queue.length > 0)` worklist of `NFA.toDFA()`, fuelled. -/
def toDFAGo (a : Automaton) : Nat → BuildSt → BuildSt
  | 0, b => b
  | fuel + 1, b =>
      match b.queue with
      | [] => b
      | (S, dId) :: rest =>
          toDFAGo a fuel
            (a.alphabet.foldl (toDFAProcessSymbol a S dId) { b with queue := rest })

/-- The initial working state: the ε-closure of the initial state becomes the
initial (and possibly final) DFA state. -/
def toDFAInit (a : Automaton) : BuildSt :=
  { dfa := (Automaton.new "dfa").addState
      { id := 0, name := "S0", x := 100, y := 200,
        isInitial := true, isFinal := subsetFinal a (initialSubset a), isHalt := false },
    stateMap := [(initialSubset a, 0)], queue := [(initialSubset a, 0)], nextId := 1 }

/-- `NFA.toDFA()`.  `2 ^ |states| + 1` units of fuel are proved sufficient:
the worklist dequeues each distinct subset of live ids at most once. -/
def toDFA (a : Automaton) : Automaton :=
  (toDFAGo a (2 ^ a.states.length + 1) (toDFAInit a)).dfa

/-- The well-formedness of an editor-built NFA under which the subset
construction is exact: duplicate-free state ids, a resolvable initial state,
no empty-string alphabet symbol, and every ordinary transition symbol
registered in the alphabet (as `addTransition` guarantees). -/
def WfNFA (a : Automaton) : Prop :=
  (a.states.map State.id).Nodup ∧
  (a.initialState.bind a.getState).isSome = true ∧
  "" ∉ a.alphabet ∧
  ∀ t ∈ a.transitions, ∀ s ∈ t.symbols, s ≠ "" → s ≠ "ε" → s ∈ a.alphabet

instance (a : Automaton) : Decidable (WfNFA a) := by
  unfold WfNFA
  infer_instance

/-- The NFA q0 −ε→ q1 (final), on which the subset construction disagrees
with the NFA on the one-character input `'ε'`: the symbol-consuming NFA step
lets ε-transitions eat a literal `'ε'` character, while `toDFA` skips the
`'ε'` symbol entirely. -/
def nfaEps : Automaton :=
  { type := "nfa",
    states := [{ id := 0, name := "q0", x := 100, y := 100,
                 isInitial := true, isFinal := false, isHalt := false },
               { id := 1, name := "q1", x := 200, y := 100,
                 isInitial := false, isFinal := true, isHalt := false }],
    transitions := [{ id := 0, fromState := some 0, toState := some 1, symbols := ["ε"] }],
    alphabet := [],
    initialState := some 0 }

/-- C1 counterexample: `nfaEps` accepts the one-character string `"ε"` (the
ε-transition's `accepts` returns true on the symbol `'ε'`, so the NFA
consumes the character and reaches the final state), but its subset
construction rejects it (`toDFA` skips `'ε'`, so the DFA has no transitions
at all), refuting `A.accepts(w) = A.toDFA().accepts(w)` as stated. -/
theorem C1_counterexample :
    WfNFA nfaEps ∧
    nfaAccepts nfaEps ['ε'] = true ∧
    dfaAccepts (toDFA nfaEps) ['ε'] = false := by
  refine ⟨by decide, ?_, ?_⟩ <;> decide

/-! #### The NFA run as a fold of macro-steps -/

lemma nfaMove_empty (a : Automaton) (s : String) : nfaMove a ∅ s = ∅ := by
  apply Finset.eq_empty_of_forall_not_mem
  intro r hr
  rw [mem_nfaMove] at hr
  obtain ⟨t, _, q, _, hq, _⟩ := hr
  exact absurd hq (Finset.not_mem_empty q)

lemma unionClosure_empty (a : Automaton) : unionClosure a ∅ = ∅ := by
  unfold unionClosure
  simp

lemma nfaStepSet_empty (a : Automaton) (c : Char) : nfaStepSet a ∅ c = ∅ := by
  unfold nfaStepSet
  rw [nfaMove_empty]
  exact unionClosure_empty a

lemma foldl_nfaStepSet_empty (a : Automaton) :
    ∀ l : List Char, l.foldl (nfaStepSet a) ∅ = ∅ := by
  intro l
  induction l with
  | nil => rfl
  | cons c l ih =>
    rw [List.foldl_cons, nfaStepSet_empty]
    exact ih

/-- Input lookup at the seam of a split input. -/
lemma getElem_append_cons (done rest : List Char) (c : Char) :
    (done ++ c :: rest)[done.length]? = some c := by
  rw [List.getElem?_append_right (Nat.le_refl done.length)]
  simp

/-- The base run loop driving `NFA.step`, from cursor position `|done|` on
input `done ++ rest` with enough fuel, ends in a state whose
`checkAcceptance` verdict is finality of the subset fold over `rest`. -/
lemma nfaRunGo_spec (a : Automaton) :
    ∀ (rest done : List Char) (fuel steps : Nat) (S : Finset Nat) (acc : Option Bool),
    rest.length ≤ fuel →
    (nfaCheckAcceptance a (done ++ rest)
        ((nfaRunGo a (done ++ rest) fuel
          { currentStates := S, inputIndex := done.length, isAccepted := acc } steps).1)).isAccepted
      = some (decide (∃ q ∈ rest.foldl (nfaStepSet a) S, ∃ f ∈ a.getFinalStates, f.id = q)) := by
  intro rest
  induction rest with
  | nil =>
    intro done fuel steps S acc _
    have hstop : (nfaRunGo a (done ++ []) fuel
        { currentStates := S, inputIndex := done.length, isAccepted := acc } steps).1 =
        { currentStates := S, inputIndex := done.length, isAccepted := acc } := by
      cases fuel with
      | zero => rfl
      | succ f =>
        unfold nfaRunGo
        rw [if_neg]
        rintro ⟨hlt, -⟩
        simp at hlt
    rw [hstop]
    unfold nfaCheckAcceptance
    rw [if_neg (by simp)]
    rfl
  | cons c rest' ih =>
    intro done fuel steps S acc hfuel
    by_cases hS : S = ∅
    · subst hS
      have hstop : (nfaRunGo a (done ++ c :: rest') fuel
          { currentStates := ∅, inputIndex := done.length, isAccepted := acc } steps).1 =
          { currentStates := (∅ : Finset Nat), inputIndex := done.length, isAccepted := acc } := by
        cases fuel with
        | zero => rfl
        | succ f =>
          unfold nfaRunGo
          rw [if_neg]
          rintro ⟨-, hne⟩
          exact hne rfl
      rw [hstop]
      unfold nfaCheckAcceptance
      rw [if_pos (by simp)]
      rw [List.foldl_cons, nfaStepSet_empty, foldl_nfaStepSet_empty]
      simp
    · obtain ⟨f, rfl⟩ : ∃ f, fuel = f + 1 := by
        cases fuel with
        | zero => simp at hfuel
        | succ f => exact ⟨f, rfl⟩
      have hcond : done.length < (done ++ c :: rest').length ∧ S ≠ ∅ := by
        refine ⟨?_, hS⟩
        simp
      show (nfaCheckAcceptance a (done ++ c :: rest')
        ((if done.length < (done ++ c :: rest').length ∧ S ≠ ∅ then
            nfaRunGo a (done ++ c :: rest') f
              (nfaStep a (done ++ c :: rest')
                { currentStates := S, inputIndex := done.length, isAccepted := acc }).2 (steps + 1)
          else ({ currentStates := S, inputIndex := done.length, isAccepted := acc }, steps)).1)).isAccepted = _
      rw [if_pos hcond]
      have hstep : (nfaStep a (done ++ c :: rest')
          { currentStates := S, inputIndex := done.length, isAccepted := acc }).2 =
          if nfaStepSet a S c = ∅ then
            { currentStates := (∅ : Finset Nat), inputIndex := done.length + 1,
              isAccepted := some false }
          else
            { currentStates := nfaStepSet a S c, inputIndex := done.length + 1,
              isAccepted := acc } := by
        unfold nfaStep
        rw [if_neg (by push_neg; exact ⟨by simp, hS⟩)]
        rw [getElem_append_cons]
        dsimp only
        by_cases he : nfaStepSet a S c = ∅
        · rw [if_pos he, if_pos he]
        · rw [if_neg he, if_neg he]
      rw [hstep]
      have hsplit : done ++ c :: rest' = (done ++ [c]) ++ rest' := by simp
      have hlen : done.length + 1 = (done ++ [c]).length := by simp
      by_cases he : nfaStepSet a S c = ∅
      · rw [if_pos he]
        rw [hsplit, hlen]
        rw [ih (done ++ [c]) f (steps + 1) ∅ (some false) (by simpa using Nat.lt_succ_iff.mp hfuel)]
        rw [List.foldl_cons, he]
      · rw [if_neg he]
        rw [hsplit, hlen]
        rw [ih (done ++ [c]) f (steps + 1) (nfaStepSet a S c) acc
          (by simpa using Nat.lt_succ_iff.mp hfuel)]
        rw [List.foldl_cons]

/-- `Automaton.accepts` on an NFA with a set initial state and an input
within the default budget is the finality of the subset fold. -/
lemma nfaAccepts_foldl (a : Automaton) (i : Nat) (w : List Char)
    (hi : a.initialState = some i) (hw : w.length ≤ 1000) :
    nfaAccepts a w = decide (∃ q ∈ w.foldl (nfaStepSet a) (epsilonClosure a [i]),
      ∃ f ∈ a.getFinalStates, f.id = q) := by
  unfold nfaAccepts nfaRun nfaInitSimulation
  rw [hi]
  dsimp only
  have hspec := nfaRunGo_spec a w [] 1000 0 (epsilonClosure a [i]) none (by omega)
  simp only [List.nil_append, List.length_nil] at hspec
  rcases hgo : nfaRunGo a w 1000
      { currentStates := epsilonClosure a [i], inputIndex := 0, isAccepted := none } 0
    with ⟨st', steps⟩
  rw [hgo] at hspec
  dsimp only at hspec ⊢
  rw [hspec]
  rfl

/-! #### The worklist invariant of the subset construction -/

/-- A transition whose symbol list is one ordinary symbol accepts exactly
that symbol. -/
lemma accepts_singleton {t : Transition} {s : String} (hts : t.symbols = [s])
    (h1 : s ≠ "") (h2 : s ≠ "ε") (u : String) :
    t.accepts (some u) = true ↔ u = s := by
  unfold Transition.accepts
  rw [hts]
  rw [if_neg (by simp [h1, h2, Ne.symm h1, Ne.symm h2])]
  simp [eq_comm]

/-- A transition accepting an ordinary symbol lists it. -/
lemma accepts_true_mem {t : Transition} {s : String}
    (h : t.accepts (some s) = true) (h1 : s ≠ "") (h2 : s ≠ "ε") : s ∈ t.symbols := by
  unfold Transition.accepts at h
  split at h
  · simp [h1, h2] at h
  · simpa using h

/-- A nonempty move on an ordinary one-character symbol implies the symbol
is registered in the alphabet (as `addTransition` maintains). -/
lemma move_ne_empty_mem_alphabet {a : Automaton} (hwf : WfNFA a)
    {K : Finset Nat} {c : Char} (hc : c ≠ 'ε')
    (hne : nfaMove a K (String.mk [c]) ≠ ∅) : String.mk [c] ∈ a.alphabet := by
  obtain ⟨r, hr⟩ := Finset.nonempty_iff_ne_empty.mpr hne
  rw [mem_nfaMove] at hr
  obtain ⟨t, ht, q, _, _, _, hacc, _⟩ := hr
  exact hwf.2.2.2 t ht _ (accepts_true_mem hacc (charString_ne hc).1 (charString_ne hc).2)
    (charString_ne hc).1 (charString_ne hc).2

/-- The closed move stays inside the live id set. -/
lemma unionClosure_subset_idSet (a : Automaton) (M : Finset Nat) :
    unionClosure a M ⊆ idSet a := by
  unfold unionClosure
  rw [Finset.biUnion_subset]
  intro q _
  exact (epsilonClosure_spec a [q]).2.1

/-- The first state carrying an id, under duplicate-free ids, is any member
carrying it. -/
lemma find?_eq_of_nodup_ids {l : List State} (hnd : (l.map State.id).Nodup)
    {st : State} (hmem : st ∈ l) {d : Nat} (hid : st.id = d) :
    l.find? (fun s => s.id == d) = some st := by
  induction l with
  | nil => cases hmem
  | cons x xs ih =>
    rw [List.map_cons, List.nodup_cons] at hnd
    rcases List.mem_cons.mp hmem with rfl | hmem'
    · exact List.find?_cons_of_pos _ (by simp [hid])
    · by_cases hx : x.id = d
      · exact absurd (by rw [hx, ← hid]; exact List.mem_map_of_mem State.id hmem')
          hnd.1
      · rw [List.find?_cons_of_neg _ (by simp [hx])]
        exact ih hnd.2 hmem'

/-- Final-state membership by id coincides with the flag of the (unique)
state carrying the id. -/
lemma finals_mem_iff {l : List State} (hnd : (l.map State.id).Nodup) (d : Nat) :
    (∃ f ∈ l.filter (fun s => s.isFinal), f.id = d) ↔
      (l.find? (fun s => s.id == d)).any (fun s => s.isFinal) = true := by
  constructor
  · rintro ⟨f, hf, hid⟩
    rw [List.mem_filter] at hf
    rw [find?_eq_of_nodup_ids hnd hf.1 hid]
    exact hf.2
  · intro h
    rcases hfind : l.find? (fun s => s.id == d) with _ | st
    · rw [hfind] at h
      simp at h
    · rw [hfind] at h
      refine ⟨st, List.mem_filter.mpr ⟨List.mem_of_find?_eq_some hfind, by simpa using h⟩, ?_⟩
      have := List.find?_some hfind
      simpa using this

/-- `subsetFinal` agrees with "some member id is a final state's id" under
duplicate-free ids. -/
lemma subsetFinal_iff {a : Automaton} (hnd : (a.states.map State.id).Nodup)
    (K : Finset Nat) :
    subsetFinal a K = true ↔ ∃ q ∈ K, ∃ f ∈ a.getFinalStates, f.id = q := by
  unfold subsetFinal
  rw [decide_eq_true_iff]
  apply exists_congr
  intro q
  apply and_congr_right
  intro _
  exact (finals_mem_iff hnd q).symm

/-- The invariant of the subset-construction worklist, apart from the
completeness of processed entries. -/
structure BuildCore (a : Automaton) (b : BuildSt) : Prop where
  align : List.Forall₂
    (fun (st : State) (kv : Finset Nat × Nat) =>
      st.id = kv.2 ∧ st.isFinal = subsetFinal a kv.1 ∧ st.isHalt = false)
    b.dfa.states b.stateMap
  valsNodup : (b.stateMap.map Prod.snd).Nodup
  valsLt : ∀ d ∈ b.stateMap.map Prod.snd, d < b.nextId
  keysNodup : (b.stateMap.map Prod.fst).Nodup
  keysSub : ∀ K ∈ b.stateMap.map Prod.fst, K ⊆ idSet a
  queueSub : ∀ e ∈ b.queue, e ∈ b.stateMap
  queueKeysNodup : (b.queue.map Prod.fst).Nodup
  initRef : b.dfa.initialState = some 0
  initMem : (initialSubset a, 0) ∈ b.stateMap
  transInv : ∀ t ∈ b.dfa.transitions, ∃ K d K2 d2 s,
    t.fromState = some d ∧ t.toState = some d2 ∧ t.symbols = [s] ∧
    s ∈ a.alphabet ∧ s ≠ "ε" ∧ (K, d) ∈ b.stateMap ∧ (K2, d2) ∈ b.stateMap ∧
    K2 = deltaD a K s ∧ nfaMove a K s ≠ ∅

/-- Completeness of the processed worklist entries: every nonempty ordinary
move out of a subset no longer pending has its closed image in the map and
its transition in the DFA. -/
def CompletedProp (a : Automaton) (b : BuildSt) : Prop :=
  ∀ kv ∈ b.stateMap, kv.1 ∉ b.queue.map Prod.fst →
    ∀ s ∈ a.alphabet, s ≠ "ε" → nfaMove a kv.1 s ≠ ∅ →
      ∃ d2, (deltaD a kv.1 s, d2) ∈ b.stateMap ∧ ∃ t ∈ b.dfa.transitions,
        t.fromState = some kv.2 ∧ t.toState = some d2 ∧ t.symbols = [s]

/-- The worklist measure: potential map growth plus pending entries. -/
def buildMeasure (a : Automaton) (b : BuildSt) : Nat :=
  (2 ^ a.states.length - b.stateMap.length) + b.queue.length

/-- The state ids of the DFA under construction are the map values, in
order. -/
lemma forall2_ids {a : Automaton} {l₁ : List State} {l₂ : List (Finset Nat × Nat)}
    (h : List.Forall₂
      (fun (st : State) (kv : Finset Nat × Nat) =>
        st.id = kv.2 ∧ st.isFinal = subsetFinal a kv.1 ∧ st.isHalt = false) l₁ l₂) :
    l₁.map State.id = l₂.map Prod.snd := by
  induction h with
  | nil => rfl
  | cons hr _ ih =>
    rw [List.map_cons, List.map_cons, hr.1, ih]

lemma BuildCore.statesIds {a : Automaton} {b : BuildSt} (h : BuildCore a b) :
    b.dfa.states.map State.id = b.stateMap.map Prod.snd :=
  forall2_ids h.align

lemma forall2_mem_right {α β : Type} {R : α → β → Prop} {l₁ : List α} {l₂ : List β}
    (h : List.Forall₂ R l₁ l₂) {y : β} (hy : y ∈ l₂) : ∃ x ∈ l₁, R x y := by
  induction h with
  | nil => cases hy
  | cons hr hf ih =>
    rcases List.mem_cons.mp hy with rfl | hy'
    · exact ⟨_, List.mem_cons_self _ _, hr⟩
    · obtain ⟨x, hx, hR⟩ := ih hy'
      exact ⟨x, List.mem_cons_of_mem _ hx, hR⟩

/-- Every map entry resolves in the DFA under construction to a state whose
final flag is the subset's. -/
lemma BuildCore.resolve {a : Automaton} {b : BuildSt} (h : BuildCore a b)
    {K : Finset Nat} {d : Nat} (hKd : (K, d) ∈ b.stateMap) :
    ∃ st, b.dfa.getState d = some st ∧ st.id = d ∧ st.isFinal = subsetFinal a K := by
  obtain ⟨st, hst, hid, hfin, -⟩ := forall2_mem_right h.align hKd
  exact ⟨st, find?_eq_of_nodup_ids (h.statesIds ▸ h.valsNodup) hst hid, hid, hfin⟩

/-- Value-functionality of the map. -/
lemma BuildCore.valEq {a : Automaton} {b : BuildSt} (h : BuildCore a b)
    {K1 K2 : Finset Nat} {d : Nat} (h1 : (K1, d) ∈ b.stateMap)
    (h2 : (K2, d) ∈ b.stateMap) : K1 = K2 := by
  have := List.inj_on_of_nodup_map h.valsNodup h1 h2 rfl
  exact congrArg Prod.fst this

/-- Key-functionality of the map. -/
lemma BuildCore.keyEq {a : Automaton} {b : BuildSt} (h : BuildCore a b)
    {K : Finset Nat} {d1 d2 : Nat} (h1 : (K, d1) ∈ b.stateMap)
    (h2 : (K, d2) ∈ b.stateMap) : d1 = d2 := by
  have := List.inj_on_of_nodup_map h.keysNodup h1 h2 rfl
  exact congrArg Prod.snd this

/-- The subset map never outgrows the powerset of the live id set. -/
lemma BuildCore.mapLen {a : Automaton} {b : BuildSt} (h : BuildCore a b) :
    b.stateMap.length ≤ 2 ^ a.states.length := by
  have h1 : (b.stateMap.map Prod.fst).toFinset.card = b.stateMap.length := by
    rw [List.toFinset_card_of_nodup h.keysNodup, List.length_map]
  have h2 : (b.stateMap.map Prod.fst).toFinset ⊆ (idSet a).powerset := by
    intro K hK
    rw [Finset.mem_powerset]
    exact h.keysSub K (List.mem_toFinset.mp hK)
  have h3 := Finset.card_le_card h2
  rw [Finset.card_powerset, h1] at h3
  calc b.stateMap.length ≤ 2 ^ (idSet a).card := h3
    _ ≤ 2 ^ a.states.length := by
        apply Nat.pow_le_pow_right (by omega)
        calc (idSet a).card ≤ (a.states.map State.id).length := List.toFinset_card_le _
          _ = a.states.length := List.length_map _ _

lemma nodup_append_one {α : Type} {l : List α} {x : α} (hl : l.Nodup) (hx : x ∉ l) :
    (l ++ [x]).Nodup := by
  simp [List.nodup_append, hl, hx]

/-- One `toDFAProcessSymbol` call preserves the core invariant, extends the
map and the queue by one common suffix and the transition list by one
suffix, and on an ordinary symbol with a nonempty move leaves the closed
move's map entry and its DFA transition behind. -/
lemma processSymbol_core {a : Automaton} {b : BuildSt} {S : Finset Nat} {dId : Nat}
    (hcore : BuildCore a b) (hSd : (S, dId) ∈ b.stateMap) (s : String)
    (hs : s ∈ a.alphabet) :
    BuildCore a (toDFAProcessSymbol a S dId b s) ∧
    (∃ l, (toDFAProcessSymbol a S dId b s).stateMap = b.stateMap ++ l ∧
          (toDFAProcessSymbol a S dId b s).queue = b.queue ++ l) ∧
    (∃ lt, (toDFAProcessSymbol a S dId b s).dfa.transitions = b.dfa.transitions ++ lt) ∧
    (s ≠ "ε" → nfaMove a S s ≠ ∅ →
      ∃ d2, (deltaD a S s, d2) ∈ (toDFAProcessSymbol a S dId b s).stateMap ∧
        ∃ t ∈ (toDFAProcessSymbol a S dId b s).dfa.transitions,
          t.fromState = some dId ∧ t.toState = some d2 ∧ t.symbols = [s]) := by
  unfold toDFAProcessSymbol
  by_cases hε : s = "ε"
  · rw [if_pos hε]
    exact ⟨hcore, ⟨[], by simp, by simp⟩, ⟨[], by simp⟩, fun h _ => absurd hε h⟩
  rw [if_neg hε]
  by_cases hmv : nfaMove a S s = ∅
  · rw [if_pos hmv]
    exact ⟨hcore, ⟨[], by simp, by simp⟩, ⟨[], by simp⟩, fun _ h => absurd hmv h⟩
  rw [if_neg hmv]
  rcases hfind : b.stateMap.find? (fun kv => kv.1 == deltaD a S s) with _ | kv
  · -- fresh subset: create the state, enqueue it, add the transition
    rw [hfind]
    dsimp only
    have hδkeys : deltaD a S s ∉ b.stateMap.map Prod.fst := by
      intro hmem
      obtain ⟨kv, hkv, hfst⟩ := List.mem_map.mp hmem
      exact absurd (by simp [hfst]) (List.find?_eq_none.mp hfind kv hkv)
    have hne : b.dfa.states ≠ [] := by
      intro h0
      have hlen := hcore.align.length_eq
      rw [h0] at hlen
      exact absurd hcore.initMem ((List.length_eq_zero.mp hlen.symm) ▸ (List.not_mem_nil _))
    have haddst : b.dfa.addState
        { id := b.nextId, name := "S" ++ toString b.nextId, x := 100, y := 200,
          isInitial := false, isFinal := subsetFinal a (deltaD a S s), isHalt := false } =
        { b.dfa with states := b.dfa.states ++
            [{ id := b.nextId, name := "S" ++ toString b.nextId, x := 100, y := 200,
               isInitial := false, isFinal := subsetFinal a (deltaD a S s), isHalt := false }] } := by
      unfold Automaton.addState
      rw [if_neg (by simpa [List.isEmpty_iff] using hne)]
      rfl
    rw [haddst]
    refine ⟨?_, ⟨[(deltaD a S s, b.nextId)], rfl, rfl⟩, ⟨[_], rfl⟩, ?_⟩
    · refine ⟨?_, ?_, ?_, ?_, ?_, ?_, ?_, ?_, ?_, ?_⟩
      · exact List.rel_append hcore.align
          (List.Forall₂.cons ⟨rfl, rfl, rfl⟩ List.Forall₂.nil)
      · rw [List.map_append]
        exact nodup_append_one hcore.valsNodup
          (fun hmem => absurd rfl (Nat.ne_of_lt (hcore.valsLt _ hmem)).symm)
      · intro d hd
        rw [List.map_append] at hd
        show d < b.nextId + 1
        rcases List.mem_append.mp hd with hd | hd
        · exact Nat.lt_succ_of_lt (hcore.valsLt d hd)
        · simp at hd
          omega
      · rw [List.map_append]
        exact nodup_append_one hcore.keysNodup hδkeys
      · intro K hK
        rw [List.map_append] at hK
        rcases List.mem_append.mp hK with hK | hK
        · exact hcore.keysSub K hK
        · simp at hK
          subst hK
          exact unionClosure_subset_idSet a _
      · intro e he
        rcases List.mem_append.mp he with he | he
        · exact List.mem_append_left _ (hcore.queueSub e he)
        · exact List.mem_append_right _ he
      · rw [List.map_append]
        refine nodup_append_one hcore.queueKeysNodup (fun hmem => hδkeys ?_)
        obtain ⟨e, he, hfst⟩ := List.mem_map.mp hmem
        have hfst2 : e.1 = deltaD a S s := hfst
        exact hfst2 ▸ List.mem_map_of_mem Prod.fst (hcore.queueSub e he)
      · exact hcore.initRef
      · exact List.mem_append_left _ hcore.initMem
      · intro t ht
        rcases List.mem_append.mp ht with ht | ht
        · obtain ⟨K, d, K2, d2, s', h1, h2, h3, h4, h5, h6, h7, h8, h9⟩ :=
            hcore.transInv t ht
          exact ⟨K, d, K2, d2, s', h1, h2, h3, h4, h5,
            List.mem_append_left _ h6, List.mem_append_left _ h7, h8, h9⟩
        · rw [List.mem_singleton] at ht
          subst ht
          exact ⟨S, dId, deltaD a S s, b.nextId, s, rfl, rfl, rfl, hs, hε,
            List.mem_append_left _ hSd,
            List.mem_append_right _ (List.mem_singleton_self _), rfl, hmv⟩
    · intro _ _
      refine ⟨b.nextId, List.mem_append_right _ (List.mem_singleton_self _), ?_⟩
      exact ⟨_, List.mem_append_right _ (List.mem_singleton_self _), rfl, rfl, rfl⟩
  · -- existing subset: only add the transition
    rw [hfind]
    dsimp only
    have hkv_mem : kv ∈ b.stateMap := List.mem_of_find?_eq_some hfind
    have hkey : kv.1 = deltaD a S s := by
      have := List.find?_some hfind
      simpa using this
    have hδ_mem : (deltaD a S s, kv.2) ∈ b.stateMap := by
      rw [← hkey]
      exact hkv_mem
    refine ⟨?_, ⟨[], by simp, by simp⟩, ⟨[_], rfl⟩, ?_⟩
    · refine ⟨hcore.align, hcore.valsNodup, hcore.valsLt, hcore.keysNodup,
        hcore.keysSub, hcore.queueSub, hcore.queueKeysNodup, hcore.initRef,
        hcore.initMem, ?_⟩
      intro t ht
      rcases List.mem_append.mp ht with ht | ht
      · exact hcore.transInv t ht
      · rw [List.mem_singleton] at ht
        subst ht
        exact ⟨S, dId, deltaD a S s, kv.2, s, rfl, rfl, rfl, hs, hε, hSd, hδ_mem, rfl, hmv⟩
    · intro _ _
      refine ⟨kv.2, hδ_mem, ?_⟩
      exact ⟨_, List.mem_append_right _ (List.mem_singleton_self _), rfl, rfl, rfl⟩

/-- The `alphabet.forEach` fold: invariant preservation, monotone growth,
and a completeness witness for every processed symbol. -/
lemma foldl_processSymbol {a : Automaton} {S : Finset Nat} {dId : Nat} :
    ∀ (L : List String) (b : BuildSt), BuildCore a b → (S, dId) ∈ b.stateMap →
    (∀ s ∈ L, s ∈ a.alphabet) →
    BuildCore a (L.foldl (toDFAProcessSymbol a S dId) b) ∧
    (∃ l, (L.foldl (toDFAProcessSymbol a S dId) b).stateMap = b.stateMap ++ l ∧
          (L.foldl (toDFAProcessSymbol a S dId) b).queue = b.queue ++ l) ∧
    (∃ lt, (L.foldl (toDFAProcessSymbol a S dId) b).dfa.transitions =
      b.dfa.transitions ++ lt) ∧
    (∀ s ∈ L, s ≠ "ε" → nfaMove a S s ≠ ∅ →
      ∃ d2, (deltaD a S s, d2) ∈ (L.foldl (toDFAProcessSymbol a S dId) b).stateMap ∧
        ∃ t ∈ (L.foldl (toDFAProcessSymbol a S dId) b).dfa.transitions,
          t.fromState = some dId ∧ t.toState = some d2 ∧ t.symbols = [s]) := by
  intro L
  induction L with
  | nil =>
    intro b hcore hSd _
    exact ⟨hcore, ⟨[], by simp, by simp⟩, ⟨[], by simp⟩, by simp⟩
  | cons s0 L ih =>
    intro b hcore hSd hsub
    obtain ⟨hcore1, ⟨l1, hm1, hq1⟩, ⟨lt1, ht1⟩, hwit1⟩ :=
      processSymbol_core hcore hSd s0 (hsub s0 (List.mem_cons_self _ _))
    have hSd1 : (S, dId) ∈ (toDFAProcessSymbol a S dId b s0).stateMap := by
      rw [hm1]
      exact List.mem_append_left _ hSd
    obtain ⟨hcore2, ⟨l2, hm2, hq2⟩, ⟨lt2, ht2⟩, hwit2⟩ :=
      ih (toDFAProcessSymbol a S dId b s0) hcore1 hSd1
        (fun s hs => hsub s (List.mem_cons_of_mem _ hs))
    rw [List.foldl_cons]
    refine ⟨hcore2, ⟨l1 ++ l2, ?_, ?_⟩, ⟨lt1 ++ lt2, ?_⟩, ?_⟩
    · rw [hm2, hm1, List.append_assoc]
    · rw [hq2, hq1, List.append_assoc]
    · rw [ht2, ht1, List.append_assoc]
    · intro s hs hsε hsmv
      rcases List.mem_cons.mp hs with rfl | hs'
      · obtain ⟨d2, hd2, t, htmem, h1, h2, h3⟩ := hwit1 hsε hsmv
        refine ⟨d2, ?_, t, ?_, h1, h2, h3⟩
        · rw [hm2]
          exact List.mem_append_left _ hd2
        · rw [ht2]
          exact List.mem_append_left _ htmem
      · exact hwit2 s hs' hsε hsmv

/-- The worklist terminates within the measure's fuel, preserving the core
invariant and establishing completeness of every map entry. -/
lemma toDFAGo_spec (a : Automaton) :
    ∀ (fuel : Nat) (b : BuildSt), BuildCore a b → CompletedProp a b →
    buildMeasure a b ≤ fuel →
    BuildCore a (toDFAGo a fuel b) ∧ CompletedProp a (toDFAGo a fuel b) ∧
    (toDFAGo a fuel b).queue = [] := by
  intro fuel
  induction fuel with
  | zero =>
    intro b hcore hcomp hμ
    have hq : b.queue = [] := by
      unfold buildMeasure at hμ
      exact List.length_eq_zero.mp (by omega)
    exact ⟨hcore, hcomp, hq⟩
  | succ n ih =>
    intro b hcore hcomp hμ
    rcases hqe : b.queue with _ | ⟨⟨S, dId⟩, rest⟩
    · unfold toDFAGo
      rw [hqe]
      exact ⟨hcore, hcomp, hqe⟩
    · unfold toDFAGo
      rw [hqe]
      dsimp only
      have hcore0 : BuildCore a { b with queue := rest } := by
        refine ⟨hcore.align, hcore.valsNodup, hcore.valsLt, hcore.keysNodup,
          hcore.keysSub, ?_, ?_, hcore.initRef, hcore.initMem, hcore.transInv⟩
        · intro e he
          exact hcore.queueSub e (by rw [hqe]; exact List.mem_cons_of_mem _ he)
        · have hnd := hcore.queueKeysNodup
          rw [hqe, List.map_cons] at hnd
          exact (List.nodup_cons.mp hnd).2
      have hSd : (S, dId) ∈ b.stateMap :=
        hcore.queueSub _ (by rw [hqe]; exact List.mem_cons_self _ _)
      obtain ⟨hcoreR, ⟨l, hmR0, hqR0⟩, ⟨lt, htR0⟩, hwitR⟩ :=
        foldl_processSymbol a.alphabet { b with queue := rest } hcore0 hSd (fun s hs => hs)
      have hmR : (a.alphabet.foldl (toDFAProcessSymbol a S dId)
          { b with queue := rest }).stateMap = b.stateMap ++ l := hmR0
      have hqR : (a.alphabet.foldl (toDFAProcessSymbol a S dId)
          { b with queue := rest }).queue = rest ++ l := hqR0
      have htR : (a.alphabet.foldl (toDFAProcessSymbol a S dId)
          { b with queue := rest }).dfa.transitions = b.dfa.transitions ++ lt := htR0
      have hcompR : CompletedProp a
          (a.alphabet.foldl (toDFAProcessSymbol a S dId) { b with queue := rest }) := by
        intro kv hkv hnotin s hs hsε hsmv
        rw [hmR] at hkv
        rcases List.mem_append.mp hkv with hkv | hkv
        · by_cases hq0 : kv.1 ∈ b.queue.map Prod.fst
          · rw [hqe, List.map_cons] at hq0
            rcases List.mem_cons.mp hq0 with hK | hK
            · have hkv_eq : kv = (S, dId) :=
                List.inj_on_of_nodup_map hcore.keysNodup hkv hSd hK
              subst hkv_eq
              exact hwitR s hs hsε hsmv
            · exfalso
              apply hnotin
              rw [hqR, List.map_append]
              exact List.mem_append_left _ hK
          · obtain ⟨d2, hd2, t, ht, h1, h2, h3⟩ := hcomp kv hkv hq0 s hs hsε hsmv
            refine ⟨d2, ?_, t, ?_, h1, h2, h3⟩
            · rw [hmR]
              exact List.mem_append_left _ hd2
            · rw [htR]
              exact List.mem_append_left _ ht
        · exfalso
          apply hnotin
          rw [hqR, List.map_append]
          exact List.mem_append_right _ (List.mem_map_of_mem Prod.fst hkv)
      have hmlen : b.stateMap.length + l.length ≤ 2 ^ a.states.length := by
        have := hcoreR.mapLen
        rw [hmR, List.length_append] at this
        exact this
      have hμR : buildMeasure a
          (a.alphabet.foldl (toDFAProcessSymbol a S dId) { b with queue := rest }) ≤ n := by
        unfold buildMeasure at hμ ⊢
        rw [hmR, hqR]
        rw [hqe] at hμ
        simp only [List.length_append, List.length_cons] at hμ ⊢
        omega
      exact ih _ hcoreR hcompR hμR

lemma initialSubset_subset (a : Automaton) : initialSubset a ⊆ idSet a := by
  unfold initialSubset
  cases a.initialState with
  | none => exact Finset.empty_subset _
  | some i => exact (epsilonClosure_spec a [i]).2.1

/-- The initial working state satisfies the core invariant. -/
lemma toDFAInit_core (a : Automaton) : BuildCore a (toDFAInit a) := by
  unfold toDFAInit
  refine ⟨?_, ?_, ?_, ?_, ?_, ?_, ?_, ?_, ?_, ?_⟩
  · exact List.Forall₂.cons ⟨rfl, rfl, rfl⟩ List.Forall₂.nil
  · simp
  · intro d hd
    simp at hd
    subst hd
    show (0 : Nat) < 1
    omega
  · simp
  · intro K hK
    simp at hK
    subst hK
    exact initialSubset_subset a
  · intro e he
    exact he
  · simp
  · rfl
  · exact List.mem_singleton_self _
  · intro t ht
    exact absurd ht (List.not_mem_nil t)

/-- The single initial map entry is still pending, so completeness holds
vacuously at the start. -/
lemma toDFAInit_completed (a : Automaton) : CompletedProp a (toDFAInit a) := by
  unfold toDFAInit CompletedProp
  intro kv hkv hnotin s _ _ _
  exfalso
  apply hnotin
  rw [List.mem_singleton] at hkv
  subst hkv
  exact List.mem_singleton_self _

lemma dfaRunGo_none (dfa : Automaton) (input : List Char) :
    ∀ (fuel idx steps : Nat) (acc : Option Bool),
    (dfaRunGo dfa input fuel
      { currentState := none, inputIndex := idx, isAccepted := acc } steps).1 =
      { currentState := none, inputIndex := idx, isAccepted := acc } := by
  intro fuel idx steps acc
  cases fuel with
  | zero => rfl
  | succ n =>
    unfold dfaRunGo
    rw [if_neg]
    rintro ⟨-, hne⟩
    exact hne rfl

/-- The base `checkAcceptance` verdict on a constructed DFA state coincides
with NFA finality of its subset. -/
lemma dfa_verdict_iff {a : Automaton} {B : BuildSt} (hwf : WfNFA a)
    (hcore : BuildCore a B) {K : Finset Nat} {d : Nat} (hKd : (K, d) ∈ B.stateMap) :
    ((∃ q', (some d : Option Nat) = some q' ∧ ∃ f ∈ B.dfa.getFinalStates, f.id = q') ↔
      ∃ q ∈ K, ∃ f ∈ a.getFinalStates, f.id = q) := by
  obtain ⟨st0, hgs, hid, hfin⟩ := hcore.resolve hKd
  have hndB : (B.dfa.states.map State.id).Nodup := by
    rw [hcore.statesIds]
    exact hcore.valsNodup
  constructor
  · rintro ⟨q', hq', f, hf, hfd⟩
    obtain rfl : d = q' := Option.some.inj hq'
    have h2 := (finals_mem_iff hndB d).mp ⟨f, hf, hfd⟩
    rw [show B.dfa.states.find? (fun s => s.id == d) = some st0 from hgs] at h2
    simp only [Option.any_some] at h2
    rw [hfin] at h2
    exact (subsetFinal_iff hwf.1 K).mp h2
  · intro h
    have h2 : subsetFinal a K = true := (subsetFinal_iff hwf.1 K).mpr h
    rw [← hfin] at h2
    have h3 := (finals_mem_iff hndB d).mpr (by
      rw [show B.dfa.states.find? (fun s => s.id == d) = some st0 from hgs]
      simpa using h2)
    obtain ⟨f, hf, hfd⟩ := h3
    exact ⟨d, rfl, f, hf, hfd⟩

/-- The finished DFA's run, started at the state of a map entry with enough
fuel on an `'ε'`-free input, decides exactly NFA finality of the subset fold:
the constructed DFA simulates the NFA's macro-steps. -/
lemma dfaRunGo_sim (a : Automaton) (B : BuildSt) (hwf : WfNFA a)
    (hcore : BuildCore a B) (hcomp : CompletedProp a B) (hq : B.queue = []) :
    ∀ (rest done : List Char) (fuel steps : Nat) (K : Finset Nat) (d : Nat) (acc : Option Bool),
    (K, d) ∈ B.stateMap → rest.length ≤ fuel → (∀ c ∈ rest, c ≠ 'ε') →
    (dfaCheckAcceptance B.dfa
        ((dfaRunGo B.dfa (done ++ rest) fuel
          { currentState := some d, inputIndex := done.length, isAccepted := acc } steps).1)).isAccepted
      = some (decide (∃ q ∈ rest.foldl (nfaStepSet a) K, ∃ f ∈ a.getFinalStates, f.id = q)) := by
  intro rest
  induction rest with
  | nil =>
    intro done fuel steps K d acc hKd _ _
    have hstop : (dfaRunGo B.dfa (done ++ []) fuel
        { currentState := some d, inputIndex := done.length, isAccepted := acc } steps).1 =
        { currentState := some d, inputIndex := done.length, isAccepted := acc } := by
      cases fuel with
      | zero => rfl
      | succ n =>
        unfold dfaRunGo
        rw [if_neg]
        rintro ⟨hlt, -⟩
        simp at hlt
    rw [hstop]
    unfold dfaCheckAcceptance
    exact congrArg some (decide_eq_decide.mpr (dfa_verdict_iff hwf hcore hKd))
  | cons c rest' ih =>
    intro done fuel steps K d acc hKd hfuel hrestε
    have hc : c ≠ 'ε' := hrestε c (List.mem_cons_self _ _)
    obtain ⟨f, rfl⟩ : ∃ f, fuel = f + 1 := by
      cases fuel with
      | zero => simp at hfuel
      | succ f => exact ⟨f, rfl⟩
    have hcond : done.length < (done ++ c :: rest').length ∧ (some d : Option Nat) ≠ none := by
      exact ⟨by simp, by simp⟩
    show (dfaCheckAcceptance B.dfa
      ((if done.length < (done ++ c :: rest').length ∧ (some d : Option Nat) ≠ none then
          dfaRunGo B.dfa (done ++ c :: rest') f
            (dfaStep B.dfa (done ++ c :: rest')
              { currentState := some d, inputIndex := done.length, isAccepted := acc }).2 (steps + 1)
        else ({ currentState := some d, inputIndex := done.length, isAccepted := acc }, steps)).1)).isAccepted = _
    rw [if_pos hcond]
    have hguard : ¬(done.length ≥ (done ++ c :: rest').length ∨
        (some d : Option Nat) = none) := by
      push_neg
      exact ⟨by simp, by simp⟩
    by_cases hmv : nfaMove a K (String.mk [c]) = ∅
    · -- no move: the DFA is stuck, both sides reject
      have hfind : (B.dfa.getTransitionsFrom d).find?
          (fun t => t.accepts (some (String.mk [c]))) = none := by
        rw [List.find?_eq_none]
        intro t ht
        have ht' := List.mem_filter.mp ht
        obtain ⟨K1, d1, K2, d2, s1, hfrom, hto, hsym, hsal, hsε, hK1, hK2, hKδ, hmv1⟩ :=
          hcore.transInv t ht'.1
        have hd1 : d1 = d := by
          have hbeq := ht'.2
          rw [show t.getFromStateId = some d1 from hfrom] at hbeq
          simpa using hbeq
        rw [hd1] at hK1
        have hK1K : K1 = K := hcore.valEq hK1 hKd
        rw [hK1K] at hmv1
        simp only [Bool.not_eq_true]
        rw [Bool.eq_false_iff]
        intro hacc2
        have hs1ne : s1 ≠ "" := fun h => hwf.2.2.1 (h ▸ hsal)
        have hceq := (accepts_singleton hsym hs1ne hsε _).mp hacc2
        rw [← hceq] at hmv1
        exact hmv1 hmv
      have hstep : (dfaStep B.dfa (done ++ c :: rest')
          { currentState := some d, inputIndex := done.length, isAccepted := acc }).2 =
          { currentState := none, inputIndex := done.length, isAccepted := some false } := by
        unfold dfaStep
        dsimp only
        rw [if_neg hguard]
        rw [getElem_append_cons]
        dsimp only
        rw [hfind]
      rw [hstep]
      rw [dfaRunGo_none]
      unfold dfaCheckAcceptance
      have hset : nfaStepSet a K c = ∅ := by
        unfold nfaStepSet
        rw [hmv]
        exact unionClosure_empty a
      rw [List.foldl_cons, hset, foldl_nfaStepSet_empty]
      simp
    · -- nonempty move: the DFA takes the constructed transition
      have hsal : String.mk [c] ∈ a.alphabet := move_ne_empty_mem_alphabet hwf hc hmv
      obtain ⟨d2w, hd2w, t0, ht0, h01, h02, h03⟩ :=
        hcomp (K, d) hKd (by rw [hq]; exact List.not_mem_nil _) (String.mk [c]) hsal
          (charString_ne hc).2 hmv
      have ht0f : t0 ∈ B.dfa.getTransitionsFrom d :=
        List.mem_filter.mpr ⟨ht0, by simp [Transition.getFromStateId, h01]⟩
      have hacc0 : t0.accepts (some (String.mk [c])) = true :=
        (accepts_singleton h03 (charString_ne hc).1 (charString_ne hc).2 _).mpr rfl
      have hfindSome : ((B.dfa.getTransitionsFrom d).find?
          (fun t => t.accepts (some (String.mk [c])))).isSome := by
        rw [List.find?_isSome]
        exact ⟨t0, ht0f, hacc0⟩
      obtain ⟨t1, hfind⟩ := Option.isSome_iff_exists.mp hfindSome
      have ht1mem := List.mem_of_find?_eq_some hfind
      have ht1acc : t1.accepts (some (String.mk [c])) = true := by
        simpa using List.find?_some hfind
      have ht1memf := List.mem_filter.mp ht1mem
      obtain ⟨K1, d1, K2, d2, s1, hfrom, hto, hsym, hsal1, hsε1, hK1, hK2, hKδ, hmv1⟩ :=
        hcore.transInv t1 ht1memf.1
      have hd1 : d1 = d := by
        have hbeq := ht1memf.2
        rw [show t1.getFromStateId = some d1 from hfrom] at hbeq
        simpa using hbeq
      rw [hd1] at hK1
      have hK1K : K1 = K := hcore.valEq hK1 hKd
      rw [hK1K] at hKδ
      subst hKδ
      have hs1c : String.mk [c] = s1 :=
        (accepts_singleton hsym (fun h => hwf.2.2.1 (h ▸ hsal1)) hsε1 _).mp ht1acc
      obtain ⟨st2, hgs2, -, -⟩ := hcore.resolve hK2
      have hres : resolveTo B.dfa t1 = some d2 := by
        unfold resolveTo
        rw [hto]
        dsimp only
        rw [if_pos (by rw [hgs2]; rfl)]
      have hstep : (dfaStep B.dfa (done ++ c :: rest')
          { currentState := some d, inputIndex := done.length, isAccepted := acc }).2 =
          { currentState := some d2, inputIndex := done.length + 1, isAccepted := acc } := by
        unfold dfaStep
        dsimp only
        rw [if_neg hguard]
        rw [getElem_append_cons]
        dsimp only
        rw [hfind]
        dsimp only
        rw [hres]
      rw [hstep]
      have hsplit : done ++ c :: rest' = (done ++ [c]) ++ rest' := by simp
      have hlen : done.length + 1 = (done ++ [c]).length := by simp
      rw [hsplit, hlen]
      rw [ih (done ++ [c]) f (steps + 1) (deltaD a K s1) d2 acc hK2
        (by simpa using Nat.lt_succ_iff.mp hfuel)
        (fun c' hc' => hrestε c' (List.mem_cons_of_mem _ hc'))]
      rw [List.foldl_cons]
      rw [show nfaStepSet a K c = deltaD a K s1 from by
        rw [← hs1c]
        rfl]

/-- C1 (amended): for a well-formed NFA — duplicate-free state ids, a
resolvable initial state, no empty-string alphabet symbol, transition
symbols registered in the alphabet — and every input within the default
1000-step budget containing no literal `'ε'` character,
`A.toDFA().accepts(w) = A.accepts(w)`.  (On a character `'ε'` the two sides
can disagree, see `C1_counterexample`; past the step budget the NFA rejects
while the DFA's verdict is the active state's finality, see C3.) -/
theorem C1_subset_construction (a : Automaton) (w : List Char) (hwf : WfNFA a)
    (hlen : w.length ≤ 1000) (hε : 'ε' ∉ w) :
    dfaAccepts (toDFA a) w = nfaAccepts a w := by
  obtain ⟨i, hi⟩ : ∃ i, a.initialState = some i := by
    rcases h : a.initialState with _ | i
    · exfalso
      have h2 := hwf.2.1
      rw [h] at h2
      simp at h2
    · exact ⟨i, rfl⟩
  have hμ0 : buildMeasure a (toDFAInit a) ≤ 2 ^ a.states.length + 1 := by
    unfold buildMeasure toDFAInit
    simp
  obtain ⟨hcoreB, hcompB, hqB⟩ :=
    toDFAGo_spec a (2 ^ a.states.length + 1) (toDFAInit a) (toDFAInit_core a)
      (toDFAInit_completed a) hμ0
  have hsim := dfaRunGo_sim a (toDFAGo a (2 ^ a.states.length + 1) (toDFAInit a)) hwf
    hcoreB hcompB hqB w [] 1000 0 (initialSubset a) 0 none hcoreB.initMem
    (by omega) (fun c hc hceq => hε (hceq ▸ hc))
  simp only [List.nil_append, List.length_nil] at hsim
  have hIS : initialSubset a = epsilonClosure a [i] := by
    unfold initialSubset
    rw [hi]
  rw [hIS] at hsim
  unfold dfaAccepts dfaRun dfaInitSimulation toDFA
  rw [hcoreB.initRef]
  rcases hgo : dfaRunGo (toDFAGo a (2 ^ a.states.length + 1) (toDFAInit a)).dfa w 1000
      { currentState := some 0, inputIndex := 0, isAccepted := none } 0 with ⟨st', steps⟩
  rw [hgo] at hsim
  dsimp only at hsim ⊢
  rw [hsim]
  rw [nfaAccepts_foldl a i w hi hlen]
  rfl

theorem C1_subset_construction_witness :
    WfNFA nfaS2 ∧ (['a', 'b'] : List Char).length ≤ 1000 ∧
    'ε' ∉ (['a', 'b'] : List Char) ∧
    dfaAccepts (toDFA nfaS2) ['a', 'b'] = nfaAccepts nfaS2 ['a', 'b'] := by
  refine ⟨by decide, by decide, by decide, ?_⟩
  exact C1_subset_construction nfaS2 ['a', 'b'] (by decide) (by decide) (by decide)

end JFLAP
